import Mathlib

/-!
# Student record manager (`student_db.cpp`): embedding and verified properties

A shallow embedding of the record codec, the record store and the reversible
obfuscator of `student_db.cpp`, followed by theorems about them.

Conventions of the embedding
* a C++ `char` is its byte value (`Fin 256`), a `std::string` a list of bytes;
* a C++ `int` is an `Int` in the 32-bit range; the text-to-int conversion
  `stoi` checks that range as the library does, and the arithmetic on the id
  counter (`mx + 1`, `next_id++`) is reduced to 32 bits, two's complement, as
  the compiled program computes it;
* a library call that throws (`stoi`, `stod`) returns `none`, and so does every
  operation through which the exception propagates (nothing in the program
  catches it);
* the backing file `students.csv` is a field of the store state;
* the credential ledger `users.txt` and the folder `user_logs` are the state
  of the credential store; an absent ledger reads as the empty one, and the
  path of a log file is looked up in a working directory that holds
  `users.txt` and the directory `user_logs`.
-/

namespace StudentDb

/-! ## Characters and strings -/

/-- A C++ `char`, by its byte value. -/
abbrev CChar := Fin 256

/-- A `std::string`: a finite sequence of bytes. -/
abbrev CString := List CChar

/-- The byte of an ASCII character literal. -/
def ch (c : Char) : CChar := Fin.ofNat c.toNat

/-- The bytes of an ASCII string literal. -/
def str (s : String) : CString := s.toList.map ch

/-- `isspace` in the "C" locale: space, `\t`, `\n`, `\v`, `\f`, `\r`. -/
def isspace (c : CChar) : Bool := c.val = 32 || (9 ≤ c.val && c.val ≤ 13)

/-- `isdigit`. -/
def isdigit (c : CChar) : Bool := 48 ≤ c.val && c.val ≤ 57

/-- `tolower` in the "C" locale: `A`..`Z` are shifted to `a`..`z`. -/
def tolower (c : CChar) : CChar :=
  if 65 ≤ c.val ∧ c.val ≤ 90 then Fin.ofNat (c.val + 32) else c

/-! ## The obfuscator: `xor_encode`, `xor_decode_hex` -/

/-- The default key of `xor_encode` and `xor_decode_hex`. -/
def key123 : CString := str "key123"

/-- The loop `for i: out[i] = out[i] ^ key[i % key.size()]`, from index `i` on. -/
def xorFrom (key : CString) : Nat → CString → CString
  | _, [] => []
  | i, c :: cs => (c ^^^ key.getD (i % key.length) 0) :: xorFrom key (i + 1) cs

/-- The table `"0123456789ABCDEF"`. -/
def hexTable : CString := str "0123456789ABCDEF"

/-- The loop `for c: hexs.push_back(hex[c >> 4]); hexs.push_back(hex[c & 0x0F])`. -/
def toHex : CString → CString
  | [] => []
  | c :: cs => hexTable.getD (c.val >>> 4) 0 :: hexTable.getD (c.val &&& 15) 0 :: toHex cs

/-- `xor_encode(s, key)`. -/
def xor_encode (s : CString) (key : CString) : CString :=
  toHex (xorFrom key 0 s)

/-- Value of a hexadecimal digit, if the character is one. -/
def hexVal (c : CChar) : Option Nat :=
  if 48 ≤ c.val ∧ c.val ≤ 57 then some (c.val - 48)
  else if 65 ≤ c.val ∧ c.val ≤ 70 then some (c.val - 55)
  else if 97 ≤ c.val ∧ c.val ≤ 102 then some (c.val - 87)
  else none

/-- Accumulates the longest run of hexadecimal digits at the head of the text. -/
def hexRun : CString → Nat → Nat
  | [], acc => acc
  | c :: cs, acc =>
    match hexVal c with
    | some d => hexRun cs (16 * acc + d)
    | none => acc

/-- Splits an optional sign off the head: `(negative, rest)`. -/
def takeSign (s : CString) : Bool × CString :=
  match s with
  | c :: r => if c = ch '-' then (true, r) else if c = ch '+' then (false, r) else (false, s)
  | [] => (false, [])

/-- Skips a `0x` / `0X` that is followed by a hexadecimal digit. -/
def skipHexMark (s : CString) : CString :=
  match s with
  | z :: x :: h :: r =>
    if z = ch '0' ∧ (x = ch 'x' ∨ x = ch 'X') ∧ (hexVal h).isSome then h :: r else s
  | _ => s

/-- `strtoul(s, nullptr, 16)` with a 64-bit `unsigned long`: leading white space,
an optional sign, an optional `0x`, the longest run of hexadecimal digits; `0`
when there is no digit, `ULONG_MAX` on overflow, and a negated value wraps. -/
def strtoul16 (s : CString) : Nat :=
  let p := takeSign (s.dropWhile isspace)
  let v := hexRun (skipHexMark p.2) 0
  if 2 ^ 64 ≤ v then 2 ^ 64 - 1
  else if p.1 then (2 ^ 64 - v) % 2 ^ 64
  else v

/-- The loop `for i += 2: bytes.push_back((char)(unsigned char)strtoul(hexs.substr(i, 2)))`. -/
def hexBytes : CString → CString
  | a :: b :: rest => Fin.ofNat (strtoul16 [a, b]) :: hexBytes rest
  | [a] => [Fin.ofNat (strtoul16 [a])]
  | [] => []

/-- `xor_decode_hex(hexs, key)`. -/
def xor_decode_hex (hexs : CString) (key : CString) : CString :=
  if hexs.length % 2 ≠ 0 then []
  else xorFrom key 0 (hexBytes hexs)


/-! ## Decimal text of integers: `operator<<(int)` and `stoi` -/

/-- The character of a decimal digit `d < 10`. -/
def digitChar (d : Nat) : CChar := Fin.ofNat (48 + d)

/-- Decimal digits of `n` pushed in front of `acc`, most significant first. -/
def showNatAux : Nat → Nat → CString → CString
  | 0, _, acc => acc
  | fuel + 1, n, acc =>
    if n < 10 then digitChar n :: acc
    else showNatAux fuel (n / 10) (digitChar (n % 10) :: acc)

/-- Decimal text of a natural number. -/
def showNat (n : Nat) : CString := showNatAux (n + 1) n []

/-- The text `ostream << int` writes in the classic locale. -/
def showInt (i : Int) : CString :=
  if i < 0 then ch '-' :: showNat i.natAbs else showNat i.natAbs

/-- The values of a C++ `int`. -/
def isInt32 (i : Int) : Prop := -2 ^ 31 ≤ i ∧ i < 2 ^ 31

instance (i : Int) : Decidable (isInt32 i) := by unfold isInt32; infer_instance

/-- The `int` the compiled program holds after an arithmetic result `i`: the
value reduced to 32 bits, two's complement (`2147483647 + 1` is `-2147483648`).
It is `i` itself when `i` is in the range of `int`. -/
def wrapInt32 (i : Int) : Int := (i + 2 ^ 31) % 2 ^ 32 - 2 ^ 31

/-- Accumulates the longest run of decimal digits at the head of the text. -/
def decRun : CString → Nat → Nat
  | [], acc => acc
  | c :: cs, acc => if isdigit c then decRun cs (10 * acc + (c.val - 48)) else acc

/-- `std::stoi(s)`: leading white space, an optional sign, the longest run of
decimal digits, the rest ignored. `none` when it throws: `std::invalid_argument`
when no digit is there, `std::out_of_range` when the value is not an `int`. -/
def stoi (s : CString) : Option Int :=
  let p := takeSign (s.dropWhile isspace)
  match p.2 with
  | [] => none
  | c :: _ =>
    if isdigit c then
      let v : Int := if p.1 then -(decRun p.2 0 : Int) else (decRun p.2 0 : Int)
      if -2 ^ 31 ≤ v ∧ v < 2 ^ 31 then some v else none
    else none

/-! ## The `double` field: `operator<<(double)` and `stod` -/

/-- An IEEE-754 binary64 value. `finite neg m e` is `(-1)^neg * m * 2^e`; the
conversions below produce it with `m` odd, or with `m = 0` and `e = 0`. -/
inductive Double where
  | finite (neg : Bool) (m : Nat) (e : Int)
  | inf (neg : Bool)
  | nan (neg : Bool)
deriving DecidableEq, Repr

/-- The literal `0.0`. -/
def Double.zero : Double := .finite false 0 0

/-- Nearest integer to `n / d`, ties to even (the default rounding mode). -/
def roundHalfEven (n d : Nat) : Nat :=
  let q := n / d
  let r := n % d
  if 2 * r < d then q
  else if d < 2 * r then q + 1
  else if q % 2 = 0 then q else q + 1

/-- Exponent `x` with `b^x ≤ n / d < b^(x+1)`, for `n, d > 0`, found by scaling. -/
def scaleExp (b : Nat) : Nat → Nat → Nat → Int
  | 0, _, _ => 0
  | fuel + 1, n, d =>
    if b * d ≤ n then scaleExp b fuel n (b * d) + 1
    else if n < d then scaleExp b fuel (b * n) d - 1
    else 0

/-- The six significant decimal digits `N` (`10^5 ≤ N < 10^6`) and the decimal
exponent `x` of `n / d > 0` after rounding: `n / d ≈ N * 10^(x - 5)`. -/
def sigDigits (n d : Nat) : Nat × Int :=
  let x := scaleExp 10 (n + d + 1) n d
  let N := if x ≤ 5 then roundHalfEven (n * 10 ^ (5 - x).toNat) d
           else roundHalfEven n (d * 10 ^ (x - 5).toNat)
  if N = 10 ^ 6 then (10 ^ 5, x + 1) else (N, x)

/-- Removes trailing `0` characters. -/
def stripZeros (s : CString) : CString :=
  (s.reverse.dropWhile (fun c => c = ch '0')).reverse

/-- Integer part, then `.` and the fraction without its trailing zeros, if any is left. -/
def withPoint (ip fp : CString) : CString :=
  if stripZeros fp = [] then ip else ip ++ ch '.' :: stripZeros fp

/-- At least two exponent digits. -/
def pad2 (s : CString) : CString := if s.length < 2 then ch '0' :: s else s

/-- The `%g` conversion with precision 6 (the stream default) of `n / d > 0`:
fixed notation when the decimal exponent is in `[-4, 6)`, scientific otherwise,
trailing zeros removed. -/
def fmtG (n d : Nat) : CString :=
  let p := sigDigits n d
  let ds := showNat p.1
  if -4 ≤ p.2 ∧ p.2 < 6 then
    if 0 ≤ p.2 then withPoint (ds.take (p.2.toNat + 1)) (ds.drop (p.2.toNat + 1))
    else withPoint [ch '0'] (List.replicate (-p.2 - 1).toNat (ch '0') ++ ds)
  else
    withPoint (ds.take 1) (ds.drop 1) ++
      ch 'e' :: (if p.2 < 0 then ch '-' else ch '+') :: pad2 (showNat p.2.natAbs)

/-- The sign text of a negative value. -/
def signText (neg : Bool) : CString := if neg then [ch '-'] else []

/-- The text `ostream << double` writes with the default format flags
(precision 6, neither `fixed` nor `scientific`) in the classic locale. -/
def showDouble : Double → CString
  | .finite neg m e =>
    signText neg ++
      (if m = 0 then [ch '0'] else fmtG (m * 2 ^ e.toNat) (2 ^ (-e).toNat))
  | .inf neg => signText neg ++ str "inf"
  | .nan neg => signText neg ++ str "nan"

/-- Strips the factors two from `m`, raising `e`. -/
def normalize : Nat → Nat → Int → Nat × Int
  | 0, m, e => (m, e)
  | fuel + 1, m, e =>
    if m = 0 then (0, 0)
    else if m % 2 = 0 then normalize fuel (m / 2) (e + 1)
    else (m, e)

/-- The result of glibc `strtod` for a value `n / d > 0` below the normal
range, `2^l ≤ n / d < 2^(l+1)` with `l < -1022`. With `t` the first 53 bits of
the value, `half` the bit after them and `sticky` the bits after that: the
value counts as tiny unless rounding it to 53 bits carries it up to `2^-1022`;
a tiny value is reported as `ERANGE` (`none`) when it is not on the subnormal
grid, and is returned unchanged otherwise. In that test glibc leaves the `half`
bit out for hexadecimal input, and for decimal input when `l = -1023` (it
reads decimal digits down to `2^-1076` only and takes any digit after them as
`sticky`). Below `2^-1075` the result is always `ERANGE`. -/
def roundSubnormal (neg hexadecimal : Bool) (n d : Nat) (l : Int) : Option Double :=
  if l < -1075 then none
  else
    let q := n * 2 ^ (52 - l).toNat
    let t := q / d
    let half : Bool := d ≤ 2 * (q % d)
    let sticky : Bool := (2 * (q % d)) % d ≠ 0
    let shift := (-1022 - l).toNat
    if shift = 1 ∧ t = 2 ^ 53 - 1 ∧ half = true then some (.finite neg 1 (-1022))
    else if t % 2 ^ shift ≠ 0 ∨ sticky = true
        ∨ (half = true ∧ hexadecimal = false ∧ shift ≠ 1) then none
    else
      let r := normalize (t + 1) (t / 2 ^ shift) (-1074)
      some (.finite neg r.1 r.2)

/-- The binary64 value that `strtod` returns for `n / d` (`d > 0`): in the
normal range the nearest value, ties to even, and `none` (`ERANGE`) when it
overflows; below the normal range see `roundSubnormal`. -/
def roundBinary64 (neg hexadecimal : Bool) (n d : Nat) : Option Double :=
  if n = 0 then some (.finite neg 0 0)
  else
    let l := scaleExp 2 (n + d + 1) n d
    if l < -1022 then roundSubnormal neg hexadecimal n d l
    else
      let e : Int := l - 52
      let m := if 0 ≤ e then roundHalfEven n (d * 2 ^ e.toNat)
               else roundHalfEven (n * 2 ^ (-e).toNat) d
      if 971 < e ∨ (e = 971 ∧ m = 2 ^ 53) then none
      else
        let r := normalize (m + 1) m e
        some (.finite neg r.1 r.2)

/-- A run of digits in base `b` (10 or 16) with at most one `.` in it:
`(value of the digits, digits after the point, digits seen, rest)`. -/
def mantissa (hex : Bool) : CString → Nat → Nat → Bool → Nat → Nat × Nat × Nat × CString
  | [], acc, frac, _, seen => (acc, frac, seen, [])
  | c :: cs, acc, frac, point, seen =>
    if c = ch '.' ∧ ¬ point then mantissa hex cs acc frac true seen
    else
      match (if hex then hexVal c else if isdigit c then some (c.val - 48) else none) with
      | some v =>
        mantissa hex cs ((if hex then 16 else 10) * acc + v)
          (if point then frac + 1 else frac) point (seen + 1)
      | none => (acc, frac, seen, c :: cs)

/-- The exponent part `e±ddd` (`p±ddd` for a hexadecimal number) at the head of
the text, `0` when it is absent or has no digit. -/
def exponentPart (mark : Char) (s : CString) : Int :=
  match s with
  | c :: r =>
    if tolower c = ch mark then
      let p := takeSign r
      match p.2 with
      | d :: _ =>
        if isdigit d then (if p.1 then -(decRun p.2 0 : Int) else (decRun p.2 0 : Int)) else 0
      | [] => 0
    else 0
  | [] => 0

/-- The value `n * b^x` as a fraction. -/
def scaled (n b : Nat) (x : Int) : Nat × Nat :=
  if 0 ≤ x then (n * b ^ x.toNat, 1) else (n, b ^ (-x).toNat)

/-- The value `strtod` returns for the digits `mant` (`digits` of them) times
`b^x`, `b` being 2 or 10. Zero digits give zero whatever the exponent. An
exponent above 1100 overflows, and with `x + 4 * digits < -1100` the value is
below `2^-1100`: both are `ERANGE`, decided without computing the power. -/
def convert (neg : Bool) (mant digits b : Nat) (x : Int) : Option Double :=
  if mant = 0 then some (.finite neg 0 0)
  else if 1100 < x then none
  else if x + 4 * digits < -1100 then none
  else roundBinary64 neg (decide (b = 2)) (scaled mant b x).1 (scaled mant b x).2

/-- `std::stod(s)`: leading white space, an optional sign, then `inf`, `nan`,
a hexadecimal number `0x h.hhh p±d` or a decimal number `d.ddd e±d`; the rest
of the text is ignored. `none` when it throws: `std::invalid_argument` when no
number is there, `std::out_of_range` when `strtod` reports `ERANGE`. -/
def stod (s : CString) : Option Double :=
  let p := takeSign (s.dropWhile isspace)
  let t := p.2
  if (t.take 3).map tolower = str "inf" then some (.inf p.1)
  else if (t.take 3).map tolower = str "nan" then some (.nan p.1)
  else
    let h := mantissa true (t.drop 2) 0 0 false 0
    if (t.take 2).map tolower = str "0x" ∧ 0 < h.2.2.1 then
      convert p.1 h.1 h.2.2.1 2 (exponentPart 'p' h.2.2.2 - 4 * h.2.1)
    else
      let m := mantissa false t 0 0 false 0
      if m.2.2.1 = 0 then none
      else convert p.1 m.1 m.2.2.1 10 (exponentPart 'e' m.2.2.2 - m.2.1)

/-! ## The record and its codec: `Student::to_csv`, `Student::from_csv_line` -/

/-- `struct Student`. -/
structure Student where
  id : Int
  name : CString
  age : Int
  branch : CString
  cgpa : Double
deriving DecidableEq, Repr

/-- `Student::to_csv`: `id,"name",age,"branch",cgpa`. -/
def Student.to_csv (s : Student) : CString :=
  showInt s.id ++ [ch ',', ch '"'] ++ s.name ++ [ch '"', ch ','] ++ showInt s.age ++
    [ch ',', ch '"'] ++ s.branch ++ [ch '"', ch ','] ++ showDouble s.cgpa

/-- A character that is neither the field separator `,` nor the quote `"`. -/
def isPlain (c : CChar) : Bool := c ≠ ch ',' && c ≠ ch '"'

/-- The splitting loop of `from_csv_line` over the rest of the line, with the
loop variables `cur`, `inq` and `fields`; the last field is pushed at the end. -/
def splitFields : CString → CString → Bool → List CString → List CString
  | [], cur, _, fields => fields ++ [cur]
  | c :: rest, cur, inq, fields =>
    if c = ch '"' then splitFields rest cur (!inq) fields
    else if c = ch ',' ∧ inq = false then splitFields rest [] inq (fields ++ [cur])
    else splitFields rest (cur ++ [c]) inq fields

/-- The record `Student s{0, "", 0, "", 0.0}` that `from_csv_line` starts from. -/
def Student.sentinel : Student := ⟨0, [], 0, [], Double.zero⟩

/-- `Student::from_csv_line`; `none` when `stoi` or `stod` throws. -/
def Student.from_csv_line (line : CString) : Option Student :=
  match splitFields line [] false [] with
  | f0 :: f1 :: f2 :: f3 :: f4 :: _ =>
    (stoi f0).bind fun id =>
    (stoi f2).bind fun age =>
    (stod f4).bind fun cgpa =>
    some ⟨id, f1, age, f3, cgpa⟩
  | _ => some Student.sentinel

/-! ## The record store: `class StudentDatabase` -/

/-- The members `db` and `next_id`, and the content of the backing file
`students.csv`. -/
structure StudentDatabase where
  db : List Student
  next_id : Int
  file : CString
deriving DecidableEq, Repr

/-- The lines `getline` yields from a stream holding `content`: the text
between line feeds; a last line without line feed counts when it is not
empty. `cur` is the line read so far. -/
def getlines : CString → CString → List CString
  | [], cur => if cur = [] then [] else [cur]
  | c :: rest, cur =>
    if c = ch '\n' then cur :: getlines rest [] else getlines rest (cur ++ [c])

/-- The loop of `refresh_next_id`: the largest id, and `0` below it. -/
def maxId (db : List Student) : Int :=
  db.foldl (fun mx s => if s.id > mx then s.id else mx) 0

/-- `StudentDatabase::refresh_next_id`. -/
def refresh_next_id (st : StudentDatabase) : StudentDatabase :=
  { st with next_id := wrapInt32 (maxId st.db + 1) }

/-- The reading loop of `load` over the lines left, `db` being the records kept
so far; `none` when a line makes `from_csv_line` throw. -/
def loadLines : List CString → List Student → Option (List Student)
  | [], db => some db
  | line :: rest, db =>
    if line.length = 0 then loadLines rest db
    else
      match Student.from_csv_line line with
      | none => none
      | some s => if s.id > 0 then loadLines rest (db ++ [s]) else loadLines rest db

/-- `StudentDatabase::load`, as the constructor runs it, on the content of the
backing file (`none`: the file is absent and is created empty). -/
def load (disk : Option CString) : Option StudentDatabase :=
  (loadLines (getlines (disk.getD []) []) []).map fun db =>
    refresh_next_id { db := db, next_id := 0, file := disk.getD [] }

/-- `StudentDatabase::save`: the file is rewritten with one line per record. -/
def save (st : StudentDatabase) : StudentDatabase :=
  { st with file := (st.db.map fun s => s.to_csv ++ [ch '\n']).flatten }

/-- `StudentDatabase::add_student`: the record returned and the store after. -/
def add_student (st : StudentDatabase) (name : CString) (age : Int) (branch : CString)
    (cgpa : Double) : Student × StudentDatabase :=
  let s : Student := ⟨st.next_id, name, age, branch, cgpa⟩
  (s, save { st with db := st.db ++ [s], next_id := wrapInt32 (st.next_id + 1) })

/-- `StudentDatabase::list_all`. -/
def list_all (st : StudentDatabase) : List Student := st.db

/-- `StudentDatabase::find_by_id`: the position of the record the returned
pointer refers to, `none` for `nullptr`. -/
def find_by_id : List Student → Int → Option Nat
  | [], _ => none
  | s :: rest, id => if s.id = id then some 0 else (find_by_id rest id).map (· + 1)

/-- `std::remove_if` followed by `erase`: the elements not matched, in order. -/
def removeIf (p : Student → Bool) (db : List Student) : List Student :=
  db.filter fun s => !p s

/-- `StudentDatabase::remove_by_id`: the result and the store after. The test
`it == db.end()` holds when `remove_if` dropped nothing. -/
def remove_by_id (st : StudentDatabase) (id : Int) : Bool × StudentDatabase :=
  let kept := removeIf (fun s => s.id = id) st.db
  if kept.length = st.db.length then (false, st)
  else (true, save { st with db := kept })

/-- Writes through the pointer `p` at position `i`. -/
def modifyAt (f : Student → Student) : List Student → Nat → List Student
  | [], _ => []
  | s :: rest, 0 => f s :: rest
  | s :: rest, i + 1 => s :: modifyAt f rest i

/-- `StudentDatabase::update_student`: the result and the store after. -/
def update_student (st : StudentDatabase) (id : Int) (name : CString) (age : Int)
    (branch : CString) (cgpa : Double) : Bool × StudentDatabase :=
  match find_by_id st.db id with
  | none => (false, st)
  | some i =>
    (true, save { st with
      db := modifyAt (fun s => { s with name := name, age := age, branch := branch, cgpa := cgpa })
        st.db i })

/-- `std::string::find(pat)`: the first position at which `pat` occurs,
`none` for `npos`. -/
def find : CString → CString → Option Nat
  | [], pat => if pat = [] then some 0 else none
  | c :: cs, pat =>
    if pat.isPrefixOf (c :: cs) then some 0 else (find cs pat).map (· + 1)

/-- `StudentDatabase::search_by_name`. -/
def search_by_name (st : StudentDatabase) (term : CString) : List Student :=
  st.db.filter fun s => (find (s.name.map tolower) (term.map tolower)).isSome

/-- The reading loop of `import_csv` over the lines left, with `db` and
`next_id`; `none` when a line makes `from_csv_line` throw. -/
def importLines : List CString → List Student → Int → Option (List Student × Int)
  | [], db, nid => some (db, nid)
  | line :: rest, db, nid =>
    if line.length = 0 then importLines rest db nid
    else
      match Student.from_csv_line line with
      | none => none
      | some s => importLines rest (db ++ [{ s with id := nid }]) (wrapInt32 (nid + 1))

/-- `StudentDatabase::import_csv` on the content of the file at `path` (`none`:
it cannot be opened): the result and the store after; `none` when an exception
leaves the function. -/
def import_csv (st : StudentDatabase) (src : Option CString) : Option (Bool × StudentDatabase) :=
  match src with
  | none => some (false, st)
  | some content =>
    (importLines (getlines content []) st.db st.next_id).map fun r =>
      (true, save { st with db := r.1, next_id := r.2 })

/-- Every id in the store is below the counter `next_id`. -/
def idsBelowNext (st : StudentDatabase) : Prop := ∀ s ∈ st.db, s.id < st.next_id

/-- The stores reached from `st0` by operations that return. -/
inductive Reachable (st0 : StudentDatabase) : StudentDatabase → Prop where
  | start : Reachable st0 st0
  | add {st : StudentDatabase} (name : CString) (age : Int) (branch : CString) (cgpa : Double) :
      Reachable st0 st → Reachable st0 (add_student st name age branch cgpa).2
  | update {st : StudentDatabase} (id : Int) (name : CString) (age : Int) (branch : CString)
      (cgpa : Double) :
      Reachable st0 st → Reachable st0 (update_student st id name age branch cgpa).2
  | remove {st : StudentDatabase} (id : Int) :
      Reachable st0 st → Reachable st0 (remove_by_id st id).2
  | imported {st st2 : StudentDatabase} (src : Option CString) (b : Bool) :
      Reachable st0 st → import_csv st src = some (b, st2) → Reachable st0 st2

/-- The stores reached from `st0` by operations that return and that keep the
id counter within the range of `int`: an `add_student` starts with `next_id`
below 2147483647, and an `import_csv` does not take `next_id` plus the number
of records it appends past 2147483647. -/
inductive ReachableInRange (st0 : StudentDatabase) : StudentDatabase → Prop where
  | start : ReachableInRange st0 st0
  | add {st : StudentDatabase} (name : CString) (age : Int) (branch : CString) (cgpa : Double) :
      ReachableInRange st0 st → st.next_id < 2147483647 →
      ReachableInRange st0 (add_student st name age branch cgpa).2
  | update {st : StudentDatabase} (id : Int) (name : CString) (age : Int) (branch : CString)
      (cgpa : Double) :
      ReachableInRange st0 st →
      ReachableInRange st0 (update_student st id name age branch cgpa).2
  | remove {st : StudentDatabase} (id : Int) :
      ReachableInRange st0 st → ReachableInRange st0 (remove_by_id st id).2
  | imported {st st2 : StudentDatabase} (src : Option CString) (b : Bool) :
      ReachableInRange st0 st → import_csv st src = some (b, st2) →
      st.next_id + ((st2.db.length : Int) - (st.db.length : Int)) ≤ 2147483647 →
      ReachableInRange st0 st2

/-- The backing file with the ids 1 and 2147483647, the largest `int`. -/
def wrapFile : CString := str "1,\"A\",20,\"CS\",8.5\n2147483647,\"B\",21,\"EE\",9\n"

/-- The records that `load` reads from `wrapFile`. -/
def wrapDb : List Student :=
  [⟨1, str "A", 20, str "CS", .finite false 17 (-1)⟩,
    ⟨2147483647, str "B", 21, str "EE", .finite false 9 0⟩]

/-- A character of the text of a number: a digit or one of `.e+-infa`. -/
def isNumChar (c : CChar) : Bool := (str "0123456789.e+-infa").contains c

/-! ## The credential store: `user_exists`, `register_user`, `check_credentials` -/

/-- The files of the credential store: the content of `users.txt` in the
working directory (empty when the file is absent: it then reads as empty and is
created by the first append) and the files of the directory `user_logs`, each
with its path `user_logs/<file name>` and content. -/
structure AuthFiles where
  users : CString
  logs : List (CString × CString)
deriving DecidableEq, Repr

/-- The words that successive extractions `f >> word` yield from a stream
holding `content`: the maximal runs of characters that are not white space.
`cur` is the word read so far. -/
def tokens : CString → CString → List CString
  | [], cur => if cur = [] then [] else [cur]
  | c :: rest, cur =>
    if isspace c then (if cur = [] then tokens rest [] else cur :: tokens rest [])
    else tokens rest (cur ++ [c])

/-- The loop `while (f >> u >> enc) if (u == username) return true;` of
`user_exists` over the words left; it ends when two more words cannot be read. -/
def scanUser : List CString → CString → Bool
  | u :: _ :: rest, username => if u = username then true else scanUser rest username
  | _, _ => false

/-- `user_exists(username)`. -/
def user_exists (fs : AuthFiles) (username : CString) : Bool :=
  scanUser (tokens fs.users []) username

/-- Appends `text` to the file at `path`, creating the file when it is absent. -/
def appendFile (files : List (CString × CString)) (path text : CString) :
    List (CString × CString) :=
  match files with
  | [] => [(path, text)]
  | (p, c) :: rest =>
    if p = path then (p, c ++ text) :: rest else (p, c) :: appendFile rest path text

/-- The two directories of the credential store: the working directory, which
holds `users.txt` and the directory `user_logs`, and `user_logs`, which holds
regular files only. -/
inductive Folder where
  | work
  | logs
deriving DecidableEq, Repr

/-- The bytes of a `std::string` up to its first NUL: the path that `open`
receives from `c_str()`. -/
def c_str (s : CString) : CString := s.takeWhile (fun c => decide (c ≠ 0))

/-- The components of a path: the texts between its `/`. -/
def components : CString → CString → List CString
  | [], cur => [cur]
  | c :: rest, cur =>
    if c = ch '/' then cur :: components rest [] else components rest (cur ++ [c])

/-- Path lookup from the directory `d`: the directory and the last component
reached. An empty component and `.` stay, `..` leads from `user_logs` to the
working directory, `user_logs` leads from the working directory into it. Every
other component that is not the last fails (`user_logs` holds no directory),
and so does `..` in the working directory: a path that leaves the working
directory is not followed. -/
def lookup : Folder → List CString → Option (Folder × CString)
  | _, [] => none
  | d, [f] => some (d, f)
  | d, c :: rest =>
    if c = [] ∨ c = str "." then lookup d rest
    else if c = str ".." then
      match d with
      | .logs => lookup .work rest
      | .work => none
    else if d = .work ∧ c = str "user_logs" then lookup .logs rest
    else none

/-- The file that `ofstream(path, ios::app)` opens for a relative `path`: its
directory and name, `none` when the open fails. The open fails on a path longer
than 4095 bytes, on a file name longer than 255 bytes, and on a last component
that names a directory (empty, `.`, `..`, or `user_logs` in the working
directory). -/
def openAppend (path : CString) : Option (Folder × CString) :=
  if 4095 < (c_str path).length then none
  else
    match lookup .work (components (c_str path) []) with
    | some (d, f) =>
      if f = [] ∨ f = str "." ∨ f = str ".." ∨ 255 < f.length then none
      else if d = .work ∧ f = str "user_logs" then none
      else some (d, f)
    | none => none

/-- `ofstream log(path, ios::app); log << text;` on the files of the store:
a file of `user_logs` is appended to or created, `users.txt` is appended to
when the path leads to it, and a stream that did not open drops the text. Any
other file of the working directory is outside the store. -/
def appendLog (fs : AuthFiles) (path text : CString) : AuthFiles :=
  match openAppend path with
  | some (.logs, f) => { fs with logs := appendFile fs.logs (str "user_logs/" ++ f) text }
  | some (.work, f) => if f = str "users.txt" then { fs with users := fs.users ++ text } else fs
  | none => fs

/-- `register_user(username, password)`: the result and the files after. -/
def register_user (fs : AuthFiles) (username password : CString) : Bool × AuthFiles :=
  if user_exists fs username then (false, fs)
  else
    (true,
      appendLog
        { fs with
          users := fs.users ++ username ++ [ch ' '] ++ xor_encode password key123 ++ [ch '\n'] }
        (str "user_logs/" ++ username ++ str ".txt")
        (str "== User: " ++ username ++ str " created ==\n"))

/-- The loop of `check_credentials` over the words left: at the first entry
whose user name matches, the decoded token is compared with the password. -/
def scanCredentials : List CString → CString → CString → Bool
  | u :: enc :: rest, username, password =>
    if u = username then decide (xor_decode_hex enc key123 = password)
    else scanCredentials rest username password
  | _, _, _ => false

/-- `check_credentials(username, password)`. -/
def check_credentials (fs : AuthFiles) (username password : CString) : Bool :=
  scanCredentials (tokens fs.users []) username password

/-- A non-empty text without white space. -/
def isWord (w : CString) : Prop := w ≠ [] ∧ ∀ c ∈ w, isspace c = false

instance (w : CString) : Decidable (isWord w) := by unfold isWord; infer_instance

/-- A non-empty text of hexadecimal digits. -/
def isHexWord (w : CString) : Prop := w ≠ [] ∧ ∀ c ∈ w, (hexVal c).isSome = true

instance (w : CString) : Decidable (isHexWord w) := by unfold isHexWord; infer_instance

/-- The ledger text with the given entries, one per line: the user name, one
space, the token, a line feed. -/
def ledgerOf (entries : List (CString × CString)) : CString :=
  (entries.map fun e => e.1 ++ [ch ' '] ++ e.2 ++ [ch '\n']).flatten

/-! ## Theorems -/

set_option maxRecDepth 1000000 in
theorem strtoul16_hex_pair (c : CChar) :
    strtoul16 [hexTable.getD (c.val >>> 4) 0, hexTable.getD (c.val &&& 15) 0] = c.val := by
  revert c
  decide

theorem hexBytes_toHex (s : CString) : hexBytes (toHex s) = s := by
  induction s with
  | nil => rfl
  | cons c cs ih =>
    simp only [toHex, hexBytes, ih, strtoul16_hex_pair]
    congr 1
    exact Fin.ext (by simp [Fin.ofNat])

theorem toHex_length (s : CString) : (toHex s).length = 2 * s.length := by
  induction s with
  | nil => rfl
  | cons c cs ih => simp only [toHex, List.length_cons, ih]; omega

theorem xor_xor_cancel (a k : CChar) : (a ^^^ k) ^^^ k = a := by
  apply Fin.ext
  have h1 : (a ^^^ k).val = (a.val ^^^ k.val) % 256 := rfl
  have h2 : ((a ^^^ k) ^^^ k).val = ((a ^^^ k).val ^^^ k.val) % 256 := rfl
  have h3 : a.val ^^^ k.val < 2 ^ 8 := Nat.xor_lt_two_pow (by omega) (by omega)
  have h4 : (a.val ^^^ k.val) % 256 = a.val ^^^ k.val := Nat.mod_eq_of_lt (by omega)
  rw [h2, h1, h4, Nat.xor_assoc, Nat.xor_self, Nat.xor_zero]
  exact Nat.mod_eq_of_lt a.isLt

theorem xorFrom_xorFrom (key : CString) (s : CString) (i : Nat) :
    xorFrom key i (xorFrom key i s) = s := by
  induction s generalizing i with
  | nil => rfl
  | cons c cs ih => simp only [xorFrom, ih, xor_xor_cancel]

/-- C2. Obfuscation round trip: for every byte sequence `s` and the fixed key
`"key123"`, `xor_decode_hex (xor_encode s)` is `s`. -/
theorem xor_decode_hex_xor_encode (s : CString) :
    xor_decode_hex (xor_encode s key123) key123 = s := by
  unfold xor_decode_hex xor_encode
  rw [if_neg (by rw [toHex_length]; omega), hexBytes_toHex, xorFrom_xorFrom]


/-! ### Decimal text -/

theorem isdigit_digitChar (d : Nat) (h : d < 10) : isdigit (digitChar d) = true := by
  interval_cases d <;> decide

theorem digitChar_val (d : Nat) (h : d < 10) : (digitChar d).val - 48 = d := by
  interval_cases d <;> decide

theorem showNatAux_digits (fuel n : Nat) (acc : CString)
    (hacc : ∀ c ∈ acc, isdigit c = true) : ∀ c ∈ showNatAux fuel n acc, isdigit c = true := by
  induction fuel generalizing n acc with
  | zero => simpa [showNatAux] using hacc
  | succ f ih =>
    unfold showNatAux
    split
    · intro c hc
      rcases List.mem_cons.1 hc with rfl | hc
      · exact isdigit_digitChar n (by assumption)
      · exact hacc c hc
    · apply ih
      intro c hc
      rcases List.mem_cons.1 hc with rfl | hc
      · exact isdigit_digitChar _ (Nat.mod_lt _ (by decide))
      · exact hacc c hc

theorem showNat_digits (n : Nat) : ∀ c ∈ showNat n, isdigit c = true :=
  showNatAux_digits _ _ _ (by simp)

theorem showNatAux_ne_nil (fuel n : Nat) (acc : CString) (h : n < fuel) :
    showNatAux fuel n acc ≠ [] := by
  induction fuel generalizing n acc with
  | zero => omega
  | succ f ih =>
    unfold showNatAux
    split
    · simp
    · exact ih _ _ (by omega)

theorem showNat_ne_nil (n : Nat) : showNat n ≠ [] :=
  showNatAux_ne_nil _ _ _ (Nat.lt_succ_self n)

theorem decRun_showNatAux (fuel n : Nat) (acc rest : CString) (h : n < fuel) :
    decRun (showNatAux fuel n acc ++ rest) 0 = decRun (acc ++ rest) n := by
  induction fuel generalizing n acc with
  | zero => omega
  | succ f ih =>
    unfold showNatAux
    split
    · rename_i h10
      simp only [List.cons_append, decRun, isdigit_digitChar n h10, if_true,
        digitChar_val n h10]
      simp
    · rename_i h10
      rw [ih _ _ (by omega)]
      have hm : n % 10 < 10 := Nat.mod_lt _ (by decide)
      simp only [List.cons_append, decRun, isdigit_digitChar _ hm, if_true,
        digitChar_val _ hm]
      congr 1
      omega

theorem decRun_showNat (n : Nat) : decRun (showNat n) 0 = n := by
  have h := decRun_showNatAux (n + 1) n [] [] (Nat.lt_succ_self n)
  simpa [showNat, decRun] using h

theorem showNat_head (n : Nat) : ∃ c cs, showNat n = c :: cs ∧ isdigit c = true := by
  cases h : showNat n with
  | nil => exact absurd h (showNat_ne_nil n)
  | cons c cs => exact ⟨c, cs, rfl, showNat_digits n c (by rw [h]; exact List.mem_cons_self _ _)⟩

set_option maxRecDepth 1000000 in
theorem isdigit_not_space (c : CChar) (h : isdigit c = true) :
    isspace c = false ∧ c ≠ ch '-' ∧ c ≠ ch '+' ∧ c ≠ ch ',' ∧ c ≠ ch '"' := by
  revert c
  decide

theorem stoi_showInt (i : Int) (h : isInt32 i) : stoi (showInt i) = some i := by
  obtain ⟨c, cs, hcs, hc⟩ := showNat_head i.natAbs
  obtain ⟨hsp, hm, hp, -, -⟩ := isdigit_not_space c hc
  have hrun := decRun_showNat i.natAbs
  unfold isInt32 at h
  unfold stoi showInt
  by_cases hneg : i < 0
  · have hv : -((i.natAbs : Nat) : Int) = i := by omega
    rw [if_pos hneg]
    have h1 : List.dropWhile isspace (ch '-' :: showNat i.natAbs) = ch '-' :: showNat i.natAbs := by
      rw [List.dropWhile_cons_of_neg]; decide
    simp only [h1, takeSign, if_true]
    rw [hcs] at hrun ⊢
    simp only [hc, if_true, hrun, hv]
    rw [if_pos h]
  · have hv : ((i.natAbs : Nat) : Int) = i := by omega
    rw [if_neg hneg, hcs] at *
    have h1 : List.dropWhile isspace (c :: cs) = c :: cs := by
      rw [List.dropWhile_cons_of_neg]; simp [hsp]
    simp only [h1, takeSign, if_neg hm, if_neg hp, hc, if_true, hrun, hv]
    simp only [Bool.false_eq_true, if_false]
    rw [if_pos h]


/-! ### The text of a `double` has no separator in it -/

theorem isPlain_of_isdigit (c : CChar) (h : isdigit c = true) : isPlain c = true := by
  obtain ⟨-, -, -, h1, h2⟩ := isdigit_not_space c h
  simp [isPlain, h1, h2]

theorem showNat_plain (n : Nat) : ∀ c ∈ showNat n, isPlain c = true :=
  fun c hc => isPlain_of_isdigit c (showNat_digits n c hc)

theorem showInt_plain (i : Int) : ∀ c ∈ showInt i, isPlain c = true := by
  intro c hc
  unfold showInt at hc
  split at hc
  · rcases List.mem_cons.1 hc with rfl | hc
    · decide
    · exact showNat_plain _ c hc
  · exact showNat_plain _ c hc

theorem stripZeros_plain (s : CString) (h : ∀ c ∈ s, isPlain c = true) :
    ∀ c ∈ stripZeros s, isPlain c = true := by
  intro c hc
  unfold stripZeros at hc
  rw [List.mem_reverse] at hc
  exact h c (List.mem_reverse.1 ((List.dropWhile_sublist _).subset hc))

theorem withPoint_plain (ip fp : CString) (h1 : ∀ c ∈ ip, isPlain c = true)
    (h2 : ∀ c ∈ fp, isPlain c = true) : ∀ c ∈ withPoint ip fp, isPlain c = true := by
  intro c hc
  unfold withPoint at hc
  split at hc
  · exact h1 c hc
  · rcases List.mem_append.1 hc with hc | hc
    · exact h1 c hc
    · rcases List.mem_cons.1 hc with rfl | hc
      · decide
      · exact stripZeros_plain fp h2 c hc

theorem pad2_plain (s : CString) (h : ∀ c ∈ s, isPlain c = true) :
    ∀ c ∈ pad2 s, isPlain c = true := by
  intro c hc
  unfold pad2 at hc
  split at hc
  · rcases List.mem_cons.1 hc with rfl | hc
    · decide
    · exact h c hc
  · exact h c hc

theorem fmtG_plain (n d : Nat) : ∀ c ∈ fmtG n d, isPlain c = true := by
  intro c hc
  have hds := showNat_plain (sigDigits n d).1
  have htake : ∀ k, ∀ c ∈ (showNat (sigDigits n d).1).take k, isPlain c = true :=
    fun k c hc => hds c (List.mem_of_mem_take hc)
  have hdrop : ∀ k, ∀ c ∈ (showNat (sigDigits n d).1).drop k, isPlain c = true :=
    fun k c hc => hds c (List.mem_of_mem_drop hc)
  unfold fmtG at hc
  simp only at hc
  split at hc
  · split at hc
    · exact withPoint_plain _ _ (htake _) (hdrop _) c hc
    · refine withPoint_plain _ _ ?_ ?_ c hc
      · intro c hc
        rcases List.mem_singleton.1 hc with rfl
        decide
      · intro c hc
        rcases List.mem_append.1 hc with hc | hc
        · rw [List.eq_of_mem_replicate hc]
          decide
        · exact hds c hc
  · rcases List.mem_append.1 hc with hc | hc
    · exact withPoint_plain _ _ (htake _) (hdrop _) c hc
    · rcases List.mem_cons.1 hc with rfl | hc
      · decide
      · rcases List.mem_cons.1 hc with hc | hc
        · rw [hc]
          split
          · exact (by decide : isPlain (ch '-') = true)
          · exact (by decide : isPlain (ch '+') = true)
        · exact pad2_plain _ (showNat_plain _) c hc

set_option maxRecDepth 100000 in
theorem signText_plain (neg : Bool) : ∀ c ∈ signText neg, isPlain c = true := by
  cases neg <;> decide

set_option maxRecDepth 100000 in
theorem inf_nan_plain :
    (∀ c ∈ str "inf", isPlain c = true) ∧ (∀ c ∈ str "nan", isPlain c = true) := by
  decide

theorem showDouble_plain (x : Double) : ∀ c ∈ showDouble x, isPlain c = true := by
  intro c hc
  cases x with
  | finite neg m e =>
    unfold showDouble at hc
    rcases List.mem_append.1 hc with hc | hc
    · exact signText_plain neg c hc
    · split at hc
      · rcases List.mem_singleton.1 hc with rfl
        decide
      · exact fmtG_plain _ _ c hc
  | inf neg =>
    unfold showDouble at hc
    rcases List.mem_append.1 hc with hc | hc
    · exact signText_plain neg c hc
    · exact inf_nan_plain.1 c hc
  | nan neg =>
    unfold showDouble at hc
    rcases List.mem_append.1 hc with hc | hc
    · exact signText_plain neg c hc
    · exact inf_nan_plain.2 c hc

/-! ### The splitting loop -/

theorem splitFields_plain (t rest cur : CString) (inq : Bool) (fields : List CString)
    (h : ∀ c ∈ t, isPlain c = true) :
    splitFields (t ++ rest) cur inq fields = splitFields rest (cur ++ t) inq fields := by
  induction t generalizing cur with
  | nil => simp
  | cons c cs ih =>
    have hc : isPlain c = true := h c (List.mem_cons_self _ _)
    simp only [isPlain, Bool.and_eq_true, decide_eq_true_eq] at hc
    simp only [List.cons_append, splitFields, if_neg hc.2, hc.1, false_and, if_false,
      List.append_eq]
    rw [ih _ (fun c hc => h c (List.mem_cons_of_mem _ hc))]
    simp

theorem splitFields_quoted (t rest cur : CString) (fields : List CString)
    (h : ch '"' ∉ t) :
    splitFields (t ++ rest) cur true fields = splitFields rest (cur ++ t) true fields := by
  induction t generalizing cur with
  | nil => simp
  | cons c cs ih =>
    have hc : c ≠ ch '"' := fun e => h (e ▸ List.mem_cons_self _ _)
    simp only [List.cons_append, splitFields, if_neg hc, Bool.true_eq_false, and_false, if_false,
      List.append_eq]
    rw [ih _ (fun hm => h (List.mem_cons_of_mem _ hm))]
    simp

theorem splitFields_to_csv (r : Student) (hn : ch '"' ∉ r.name) (hb : ch '"' ∉ r.branch) :
    splitFields r.to_csv [] false [] =
      [showInt r.id, r.name, showInt r.age, r.branch, showDouble r.cgpa] := by
  have hq : ch '"' = ch '"' := rfl
  have hcq : ch ',' ≠ ch '"' := by decide
  unfold Student.to_csv
  simp only [List.append_assoc, List.cons_append, List.nil_append]
  rw [splitFields_plain _ _ _ _ _ (showInt_plain r.id)]
  simp only [splitFields, if_neg hcq, if_pos hq, true_and, if_true, Bool.not_false, and_self]
  rw [splitFields_quoted _ _ _ _ hn]
  simp only [splitFields, if_neg hcq, if_pos hq, true_and, if_true, Bool.not_true, and_self]
  rw [splitFields_plain _ _ _ _ _ (showInt_plain r.age)]
  simp only [splitFields, if_neg hcq, if_pos hq, true_and, if_true, Bool.not_false, and_self]
  rw [splitFields_quoted _ _ _ _ hb]
  simp only [splitFields, if_neg hcq, if_pos hq, true_and, if_true, Bool.not_true, and_self]
  have h := splitFields_plain (showDouble r.cgpa) [] [] false
    [showInt r.id, r.name, showInt r.age, r.branch] (showDouble_plain r.cgpa)
  simpa [splitFields] using h

/-- C1 (amended). Record codec round trip: for a record whose name and branch
hold no double quote (commas allowed), whose `id` and `age` are C++ `int`
values and whose `cgpa`, as rendered with six significant digits, is read back
by `stod` as `c`, decoding the encoded line returns the record with the same
`id`, `name`, `age` and `branch` and with `cgpa = c`. -/
theorem from_csv_line_to_csv (r : Student) (c : Double)
    (hn : ch '"' ∉ r.name) (hb : ch '"' ∉ r.branch)
    (hid : isInt32 r.id) (hage : isInt32 r.age)
    (hc : stod (showDouble r.cgpa) = some c) :
    Student.from_csv_line r.to_csv = some { r with cgpa := c } := by
  unfold Student.from_csv_line
  rw [splitFields_to_csv r hn hb]
  simp [stoi_showInt _ hid, stoi_showInt _ hage, hc]


theorem from_csv_line_to_csv_witness :
    Student.from_csv_line
        (Student.to_csv ⟨7, str "Rao, A", 20, str "CS", .finite false 17 (-1)⟩) =
      some ⟨7, str "Rao, A", 20, str "CS", .finite false 17 (-1)⟩ :=
  from_csv_line_to_csv ⟨7, str "Rao, A", 20, str "CS", .finite false 17 (-1)⟩
    (.finite false 17 (-1)) (by decide) (by decide) (by decide) (by decide) (by decide)

/-- C1 (as stated) fails: the record with `cgpa = 1 + 2^-20`
(`1.00000095367431640625`) is written as `1,"Alice",20,"CS",1` and decoded
with `cgpa = 1`, so the round trip does not return it in all five fields. -/
theorem from_csv_line_to_csv_not_all_fields :
    Student.to_csv ⟨1, str "Alice", 20, str "CS", .finite false 1048577 (-20)⟩ =
        str "1,\"Alice\",20,\"CS\",1" ∧
      Student.from_csv_line
          (Student.to_csv ⟨1, str "Alice", 20, str "CS", .finite false 1048577 (-20)⟩) =
        some ⟨1, str "Alice", 20, str "CS", .finite false 1 0⟩ ∧
      ¬ ∀ r : Student, ch '"' ∉ r.name → ch '"' ∉ r.branch → isInt32 r.id → isInt32 r.age →
          Student.from_csv_line r.to_csv = some r := by
  refine ⟨by decide, by decide, fun h => ?_⟩
  have h1 := h ⟨1, str "Alice", 20, str "CS", .finite false 1048577 (-20)⟩
    (by decide) (by decide) (by decide) (by decide)
  revert h1
  decide


/-! ### The id counter stays above every id -/

theorem wrapInt32_eq (i : Int) (h1 : -2147483648 ≤ i) (h2 : i ≤ 2147483647) :
    wrapInt32 i = i := by
  unfold wrapInt32
  omega

theorem foldl_max_ge (db : List Student) (mx : Int) :
    mx ≤ db.foldl (fun mx s => if s.id > mx then s.id else mx) mx ∧
      ∀ s ∈ db, s.id ≤ db.foldl (fun mx s => if s.id > mx then s.id else mx) mx := by
  induction db generalizing mx with
  | nil => simp
  | cons a rest ih =>
    simp only [List.foldl_cons, List.mem_cons, forall_eq_or_imp]
    have h := ih (if a.id > mx then a.id else mx)
    by_cases hgt : a.id > mx
    · rw [if_pos hgt] at h ⊢
      exact ⟨by omega, h.1, h.2⟩
    · rw [if_neg hgt] at h ⊢
      exact ⟨h.1, by omega, h.2⟩

theorem lt_maxId_succ (db : List Student) : ∀ s ∈ db, s.id < maxId db + 1 := by
  intro s hs
  have h := (foldl_max_ge db 0).2 s hs
  unfold maxId
  omega

theorem save_db (st : StudentDatabase) : (save st).db = st.db := rfl

theorem save_next_id (st : StudentDatabase) : (save st).next_id = st.next_id := rfl

theorem foldl_max_attained (db : List Student) (mx : Int) :
    db.foldl (fun mx s => if s.id > mx then s.id else mx) mx = mx ∨
      ∃ s ∈ db, db.foldl (fun mx s => if s.id > mx then s.id else mx) mx = s.id := by
  induction db generalizing mx with
  | nil => exact Or.inl rfl
  | cons a rest ih =>
    simp only [List.foldl_cons, List.mem_cons, exists_eq_or_imp]
    by_cases hgt : a.id > mx
    · rw [if_pos hgt]
      rcases ih a.id with h | ⟨s, hs, h⟩
      · exact Or.inr (Or.inl h)
      · exact Or.inr (Or.inr ⟨s, hs, h⟩)
    · rw [if_neg hgt]
      rcases ih mx with h | ⟨s, hs, h⟩
      · exact Or.inl h
      · exact Or.inr (Or.inr ⟨s, hs, h⟩)

theorem maxId_attained (db : List Student) (hne : db ≠ []) (hpos : ∀ s ∈ db, s.id > 0) :
    ∃ s ∈ db, maxId db = s.id := by
  rcases foldl_max_attained db 0 with h | h
  · cases db with
    | nil => exact absurd rfl hne
    | cons a rest =>
      have h1 := (foldl_max_ge (a :: rest) 0).2 a (List.mem_cons_self _ _)
      have h2 := hpos a (List.mem_cons_self _ _)
      rw [h] at h1
      omega
  · exact h

theorem maxId_nonneg (db : List Student) : 0 ≤ maxId db := (foldl_max_ge db 0).1

theorem maxId_lt (db : List Student) (b : Int) (hb : 0 < b) (h : ∀ s ∈ db, s.id < b) :
    maxId db < b := by
  rcases foldl_max_attained db 0 with h0 | ⟨s, hs, h1⟩
  · unfold maxId
    omega
  · unfold maxId
    rw [h1]
    exact h s hs

theorem maxId_eq_of_ids (db1 db2 : List Student)
    (h : db1.map Student.id = db2.map Student.id) : maxId db1 = maxId db2 := by
  have key : ∀ (db : List Student) (mx : Int),
      db.foldl (fun mx s => if s.id > mx then s.id else mx) mx =
        (db.map Student.id).foldl (fun mx i => if i > mx then i else mx) mx := by
    intro db
    induction db with
    | nil => intro mx; rfl
    | cons a rest ih => intro mx; simp only [List.foldl_cons, List.map_cons, ih]
  unfold maxId
  rw [key, key, h]

theorem maxId_append_singleton (db : List Student) (s : Student) :
    maxId (db ++ [s]) = if s.id > maxId db then s.id else maxId db := by
  unfold maxId
  rw [List.foldl_append]
  rfl

theorem loadLines_pos (lines : List CString) (db db2 : List Student)
    (h : loadLines lines db = some db2) (hpos : ∀ s ∈ db, s.id > 0) : ∀ s ∈ db2, s.id > 0 := by
  induction lines generalizing db with
  | nil =>
    simp only [loadLines, Option.some.injEq] at h
    rw [← h]
    exact hpos
  | cons l rest ih =>
    unfold loadLines at h
    split at h
    · exact ih db h hpos
    · split at h
      · exact absurd h (by simp)
      · rename_i s hs
        split at h
        · rename_i hgt
          refine ih _ h ?_
          intro t ht
          rcases List.mem_append.1 ht with ht | ht
          · exact hpos t ht
          · rw [List.mem_singleton.1 ht]
            exact hgt
        · exact ih db h hpos

theorem load_state (disk : Option CString) (st : StudentDatabase)
    (h : load disk = some st) :
    st.next_id = wrapInt32 (maxId st.db + 1) ∧ ∀ s ∈ st.db, s.id > 0 := by
  unfold load at h
  cases hl : loadLines (getlines (disk.getD []) []) [] with
  | none => simp [hl] at h
  | some db =>
    simp only [hl, Option.map_some'] at h
    cases Option.some.inj h
    exact ⟨rfl, loadLines_pos _ _ _ hl (by simp)⟩

theorem load_inRange (disk : Option CString) (st : StudentDatabase)
    (h : load disk = some st) (hmax : ∀ s ∈ st.db, s.id < 2147483647) :
    st.next_id = maxId st.db + 1 ∧ st.next_id ≤ 2147483647 ∧ idsBelowNext st ∧
      ∀ s ∈ st.db, s.id > 0 := by
  obtain ⟨h1, h2⟩ := load_state disk st h
  have hnn := maxId_nonneg st.db
  have hlt := maxId_lt st.db 2147483647 (by decide) hmax
  have hw : st.next_id = maxId st.db + 1 := by
    rw [h1, wrapInt32_eq _ (by omega) (by omega)]
  refine ⟨hw, by omega, ?_, h2⟩
  intro s hs
  rw [hw]
  exact lt_maxId_succ st.db s hs

theorem modifyAt_map_id (f : Student → Student) (hf : ∀ s, (f s).id = s.id)
    (db : List Student) (i : Nat) : (modifyAt f db i).map Student.id = db.map Student.id := by
  induction db generalizing i with
  | nil => rfl
  | cons a rest ih =>
    cases i with
    | zero => simp [modifyAt, hf]
    | succ i => simp [modifyAt, ih]

theorem update_student_ids (st : StudentDatabase) (id : Int) (name : CString) (age : Int)
    (branch : CString) (cgpa : Double) :
    (update_student st id name age branch cgpa).2.db.map Student.id = st.db.map Student.id ∧
      (update_student st id name age branch cgpa).2.next_id = st.next_id := by
  unfold update_student
  split
  · exact ⟨rfl, rfl⟩
  · exact ⟨modifyAt_map_id
      (fun s => { s with name := name, age := age, branch := branch, cgpa := cgpa })
      (fun _ => rfl) _ _, rfl⟩

theorem remove_by_id_db (st : StudentDatabase) (id : Int) :
    (remove_by_id st id).2.db = st.db.filter (fun s => decide (s.id ≠ id)) ∧
      (remove_by_id st id).2.next_id = st.next_id := by
  have hf : removeIf (fun s => decide (s.id = id)) st.db
      = st.db.filter (fun s => decide (s.id ≠ id)) := by
    unfold removeIf
    congr 1
    funext s
    simp
  unfold remove_by_id
  simp only
  split
  · rename_i h
    refine ⟨?_, rfl⟩
    rw [← hf]
    exact ((List.filter_sublist _).eq_of_length h).symm
  · exact ⟨hf, rfl⟩

theorem importLines_length (lines : List CString) (db db2 : List Student) (nid nid2 : Int)
    (h : importLines lines db nid = some (db2, nid2)) : db.length ≤ db2.length := by
  induction lines generalizing db nid with
  | nil =>
    simp only [importLines, Option.some.injEq, Prod.mk.injEq] at h
    rw [h.1]
  | cons line rest ih =>
    unfold importLines at h
    split at h
    · exact ih db nid h
    · split at h
      · exact absurd h (by simp)
      · have := ih _ _ h
        simp only [List.length_append, List.length_singleton] at this
        omega

theorem importLines_inRange (lines : List CString) (db db2 : List Student) (nid nid2 : Int)
    (h : importLines lines db nid = some (db2, nid2)) (h1 : 1 ≤ nid)
    (hg : nid + ((db2.length : Int) - (db.length : Int)) ≤ 2147483647)
    (hlt : ∀ s ∈ db, s.id < nid) :
    nid2 = nid + ((db2.length : Int) - (db.length : Int)) ∧ (∀ s ∈ db2, s.id < nid2) ∧
      ((db.map Student.id).Nodup → (db2.map Student.id).Nodup) ∧
      (nid = maxId db + 1 → nid2 = maxId db2 + 1) ∧
      ((∀ s ∈ db, s.id > 0) → ∀ s ∈ db2, s.id > 0) := by
  induction lines generalizing db nid with
  | nil =>
    simp only [importLines, Option.some.injEq, Prod.mk.injEq] at h
    obtain ⟨rfl, rfl⟩ := h
    exact ⟨by omega, hlt, id, id, id⟩
  | cons line rest ih =>
    unfold importLines at h
    split at h
    · exact ih db nid h h1 hg hlt
    · split at h
      · exact absurd h (by simp)
      · rename_i s hs
        have hlen := importLines_length _ _ _ _ _ h
        simp only [List.length_append, List.length_singleton] at hlen
        have hw : wrapInt32 (nid + 1) = nid + 1 := wrapInt32_eq _ (by omega) (by omega)
        rw [hw] at h
        have hstep : ∀ t ∈ db ++ [{ s with id := nid }], t.id < nid + 1 := by
          intro t ht
          rcases List.mem_append.1 ht with ht | ht
          · have := hlt t ht
            omega
          · rw [List.mem_singleton.1 ht]
            show nid < nid + 1
            omega
        obtain ⟨g1, g2, g3, g4, g5⟩ := ih (db ++ [{ s with id := nid }]) (nid + 1) h (by omega)
          (by simp only [List.length_append, List.length_singleton]; push_cast; omega) hstep
        simp only [List.length_append, List.length_singleton] at g1
        refine ⟨by rw [g1]; push_cast; omega, g2, ?_, ?_, ?_⟩
        · intro hnd
          apply g3
          rw [List.map_append, List.nodup_append]
          refine ⟨hnd, by simp, ?_⟩
          intro a ha hb
          simp only [List.map_cons, List.map_nil, List.mem_singleton] at hb
          obtain ⟨t, ht, rfl⟩ := List.mem_map.1 ha
          have := hlt t ht
          omega
        · intro hc
          apply g4
          have hnn := maxId_nonneg db
          rw [maxId_append_singleton]
          show nid + 1 = (if nid > maxId db then nid else maxId db) + 1
          rw [if_pos (by omega)]
        · intro hpos
          apply g5
          intro t ht
          rcases List.mem_append.1 ht with ht | ht
          · exact hpos t ht
          · rw [List.mem_singleton.1 ht]
            show nid > 0
            omega

theorem import_csv_some (st st2 : StudentDatabase) (src : Option CString) (b : Bool)
    (h : import_csv st src = some (b, st2)) :
    st2 = st ∨ ∃ lines, importLines lines st.db st.next_id = some (st2.db, st2.next_id) := by
  unfold import_csv at h
  cases src with
  | none =>
    simp only [Option.some.injEq, Prod.mk.injEq] at h
    exact Or.inl h.2.symm
  | some content =>
    simp only at h
    cases hl : importLines (getlines content []) st.db st.next_id with
    | none => simp [hl] at h
    | some r =>
      obtain ⟨db2, nid2⟩ := r
      simp only [hl, Option.map_some', Option.some.injEq, Prod.mk.injEq] at h
      refine Or.inr ⟨getlines content [], ?_⟩
      rw [← h.2]
      exact hl

theorem inRange_ids (st0 st : StudentDatabase) (hr : ReachableInRange st0 st)
    (h0 : 1 ≤ st0.next_id ∧ st0.next_id ≤ 2147483647 ∧ idsBelowNext st0) :
    (1 ≤ st.next_id ∧ st.next_id ≤ 2147483647 ∧ idsBelowNext st) ∧
      ((st0.db.map Student.id).Nodup → (st.db.map Student.id).Nodup) := by
  induction hr with
  | start => exact ⟨h0, id⟩
  | @add st name age branch cgpa _ hlt ih =>
    obtain ⟨⟨b1, b2, h2⟩, h1⟩ := ih
    have hw : wrapInt32 (st.next_id + 1) = st.next_id + 1 :=
      wrapInt32_eq _ (by omega) (by omega)
    refine ⟨⟨?_, ?_, ?_⟩, ?_⟩
    · show 1 ≤ wrapInt32 (st.next_id + 1)
      omega
    · show wrapInt32 (st.next_id + 1) ≤ 2147483647
      omega
    · intro t ht
      show t.id < wrapInt32 (st.next_id + 1)
      rw [hw]
      rcases List.mem_append.1 (show t ∈ st.db ++ [_] from ht) with ht | ht
      · have := h2 t ht
        omega
      · rw [List.mem_singleton.1 ht]
        show st.next_id < st.next_id + 1
        omega
    · intro hnd
      show ((st.db ++ [(⟨st.next_id, name, age, branch, cgpa⟩ : Student)]).map Student.id).Nodup
      rw [List.map_append, List.nodup_append]
      refine ⟨h1 hnd, by simp, ?_⟩
      intro a ha hb
      simp only [List.map_cons, List.map_nil, List.mem_singleton] at hb
      obtain ⟨t, ht, rfl⟩ := List.mem_map.1 ha
      have := h2 t ht
      omega
  | @update st id name age branch cgpa _ ih =>
    obtain ⟨⟨b1, b2, h2⟩, h1⟩ := ih
    obtain ⟨e1, e2⟩ := update_student_ids st id name age branch cgpa
    refine ⟨⟨by rw [e2]; exact b1, by rw [e2]; exact b2, ?_⟩, fun hnd => by rw [e1]; exact h1 hnd⟩
    intro t ht
    have hm : t.id ∈ st.db.map Student.id := by
      rw [← e1]
      exact List.mem_map_of_mem _ ht
    obtain ⟨u, hu, hut⟩ := List.mem_map.1 hm
    rw [e2, ← hut]
    exact h2 u hu
  | @remove st id _ ih =>
    obtain ⟨⟨b1, b2, h2⟩, h1⟩ := ih
    obtain ⟨e1, e2⟩ := remove_by_id_db st id
    refine ⟨⟨by rw [e2]; exact b1, by rw [e2]; exact b2, ?_⟩, ?_⟩
    · intro t ht
      rw [e1] at ht
      rw [e2]
      exact h2 t (List.mem_of_mem_filter ht)
    · intro hnd
      rw [e1]
      exact (h1 hnd).sublist ((List.filter_sublist _).map _)
  | @imported st st2 src b _ himp hg ih =>
    obtain ⟨⟨b1, b2, h2⟩, h1⟩ := ih
    rcases import_csv_some st st2 src b himp with rfl | ⟨lines, hl⟩
    · exact ⟨⟨b1, b2, h2⟩, h1⟩
    · obtain ⟨g1, g2, g3, -, -⟩ := importLines_inRange _ _ _ _ _ hl b1 hg h2
      have hlen := importLines_length _ _ _ _ _ hl
      exact ⟨⟨by omega, by omega, g2⟩, fun hnd => g3 (h1 hnd)⟩

theorem remove_last (db : List Student) (s : Student) (n : Int) (f : CString)
    (h : ∀ r ∈ db, r.id ≠ s.id) :
    remove_by_id ⟨db ++ [s], n, f⟩ s.id = (true, save ⟨db, n, f⟩) := by
  have hkeep : removeIf (fun r => decide (r.id = s.id)) (db ++ [s]) = db := by
    unfold removeIf
    rw [List.filter_append, List.filter_eq_self.2 (fun r hr => by simp [h r hr])]
    simp
  unfold remove_by_id
  simp only [hkeep, List.length_append, List.length_singleton]
  rw [if_neg (by omega)]

set_option maxRecDepth 1000000 in
theorem wrapDb_file : (save ⟨wrapDb, 0, []⟩).file = wrapFile := by
  decide

theorem wrap_cycle (k : Nat) (hk : k ≤ 2147483649) :
    Reachable ⟨wrapDb, -2147483648, wrapFile⟩ ⟨wrapDb, -2147483648 + (k : Int), wrapFile⟩ := by
  induction k with
  | zero => exact Reachable.start
  | succ k ih =>
    have h := ih (by omega)
    have hstep := Reachable.remove (-2147483648 + (k : Int))
      (Reachable.add (str "C") 19 (str "ME") (.finite false 7 0) h)
    have hne : ∀ r ∈ wrapDb,
        r.id ≠ (⟨-2147483648 + (k : Int), str "C", 19, str "ME", .finite false 7 0⟩ : Student).id := by
      intro r hr
      simp only [wrapDb, List.mem_cons, List.mem_singleton, List.not_mem_nil, or_false] at hr
      rcases hr with rfl | rfl
      · show (1 : Int) ≠ -2147483648 + (k : Int)
        omega
      · show (2147483647 : Int) ≠ -2147483648 + (k : Int)
        omega
    have hrem := remove_last wrapDb
      ⟨-2147483648 + (k : Int), str "C", 19, str "ME", .finite false 7 0⟩
      (wrapInt32 (-2147483648 + (k : Int) + 1))
      (save ⟨wrapDb ++ [⟨-2147483648 + (k : Int), str "C", 19, str "ME", .finite false 7 0⟩],
        0, []⟩).file hne
    have hw : wrapInt32 (-2147483648 + (k : Int) + 1) = -2147483648 + ((k + 1 : Nat) : Int) := by
      rw [wrapInt32_eq _ (by omega) (by omega)]
      push_cast
      omega
    have e : (remove_by_id (add_student ⟨wrapDb, -2147483648 + (k : Int), wrapFile⟩
        (str "C") 19 (str "ME") (.finite false 7 0)).2 (-2147483648 + (k : Int))).2 =
        ⟨wrapDb, -2147483648 + ((k + 1 : Nat) : Int), wrapFile⟩ := by
      have hadd : (add_student ⟨wrapDb, -2147483648 + (k : Int), wrapFile⟩
          (str "C") 19 (str "ME") (.finite false 7 0)).2 =
          ⟨wrapDb ++ [⟨-2147483648 + (k : Int), str "C", 19, str "ME", .finite false 7 0⟩],
            wrapInt32 (-2147483648 + (k : Int) + 1),
            (save ⟨wrapDb ++ [⟨-2147483648 + (k : Int), str "C", 19, str "ME",
              .finite false 7 0⟩], 0, []⟩).file⟩ := rfl
      rw [hadd]
      have hrem2 := congrArg Prod.snd hrem
      simp only at hrem2
      rw [hrem2, hw]
      show (⟨wrapDb, _, (save ⟨wrapDb, 0, []⟩).file⟩ : StudentDatabase) = _
      rw [wrapDb_file]
    rw [e] at hstep
    exact hstep

/-- C3 (amended). Id uniqueness while the counter stays in range: when the
store loaded from the backing file has pairwise distinct ids, all below
2147483647, so has every store reached from it by `add_student`,
`import_csv`, `update_student` and `remove_by_id`, in any order, as long as
the 32-bit id counter does not overflow. -/
theorem ids_nodup_of_reachable (disk : Option CString) (st0 st : StudentDatabase)
    (hload : load disk = some st0) (hnd : (st0.db.map Student.id).Nodup)
    (hmax : ∀ s ∈ st0.db, s.id < 2147483647)
    (hr : ReachableInRange st0 st) : (st.db.map Student.id).Nodup := by
  obtain ⟨h1, h2, h3, -⟩ := load_inRange disk st0 hload hmax
  have hnn := maxId_nonneg st0.db
  exact (inRange_ids st0 st hr ⟨by omega, h2, h3⟩).2 hnd

/-- C4 (amended). Id monotonicity while the counter stays in range: in every
store reached from `load` of a backing file whose ids are all below
2147483647, by operations that do not overflow the 32-bit id counter, the id
`add_student` returns is strictly greater than the id of every record in the
store just before the add. -/
theorem add_student_id_gt_all (disk : Option CString) (st0 st : StudentDatabase)
    (hload : load disk = some st0) (hmax : ∀ s ∈ st0.db, s.id < 2147483647)
    (hr : ReachableInRange st0 st)
    (name : CString) (age : Int) (branch : CString) (cgpa : Double) :
    ∀ s ∈ st.db, s.id < (add_student st name age branch cgpa).1.id := by
  intro s hs
  obtain ⟨h1, h2, h3, -⟩ := load_inRange disk st0 hload hmax
  have hnn := maxId_nonneg st0.db
  exact (inRange_ids st0 st hr ⟨by omega, h2, h3⟩).1.2.2 s hs

theorem ids_nodup_of_reachable_witness :
    ((add_student ⟨[⟨1, str "A", 20, str "CS", .finite false 17 (-1)⟩,
          ⟨3, str "B", 21, str "EE", .finite false 9 0⟩], 4,
        str "1,\"A\",20,\"CS\",8.5\n3,\"B\",21,\"EE\",9\n"⟩
      (str "C") 19 (str "ME") (.finite false 7 0)).2.db.map Student.id).Nodup :=
  ids_nodup_of_reachable (some (str "1,\"A\",20,\"CS\",8.5\n3,\"B\",21,\"EE\",9\n"))
    ⟨[⟨1, str "A", 20, str "CS", .finite false 17 (-1)⟩,
        ⟨3, str "B", 21, str "EE", .finite false 9 0⟩], 4,
      str "1,\"A\",20,\"CS\",8.5\n3,\"B\",21,\"EE\",9\n"⟩ _
    (by decide) (by decide) (by decide)
    (ReachableInRange.add _ _ _ _ ReachableInRange.start (by decide))

theorem add_student_id_gt_all_witness :
    (⟨1, str "A", 20, str "CS", .finite false 17 (-1)⟩ : Student).id <
      (add_student (remove_by_id ⟨[⟨1, str "A", 20, str "CS", .finite false 17 (-1)⟩,
          ⟨3, str "B", 21, str "EE", .finite false 9 0⟩], 4,
        str "1,\"A\",20,\"CS\",8.5\n3,\"B\",21,\"EE\",9\n"⟩ 3).2
        (str "C") 19 (str "ME") (.finite false 7 0)).1.id :=
  add_student_id_gt_all (some (str "1,\"A\",20,\"CS\",8.5\n3,\"B\",21,\"EE\",9\n"))
    ⟨[⟨1, str "A", 20, str "CS", .finite false 17 (-1)⟩,
        ⟨3, str "B", 21, str "EE", .finite false 9 0⟩], 4,
      str "1,\"A\",20,\"CS\",8.5\n3,\"B\",21,\"EE\",9\n"⟩ _
    (by decide) (by decide) (ReachableInRange.remove 3 ReachableInRange.start) _ _ _ _
    ⟨1, str "A", 20, str "CS", .finite false 17 (-1)⟩ (by decide)

set_option maxRecDepth 1000000 in
/-- C3 (as stated) fails: the backing file with the ids 1 and 2147483647 has
distinct ids and loads with the counter at -2147483648 (`2147483647 + 1` in 32
bits). Each `add_student` followed by `remove_by_id` of the record just added
leaves the records as they were and moves the counter up by one; after
2147483649 such rounds the counter is 1, and the next `add_student` stores a
second record with id 1. -/
theorem ids_repeat_after_wrap :
    load (some wrapFile) = some ⟨wrapDb, -2147483648, wrapFile⟩ ∧
      (wrapDb.map Student.id).Nodup ∧
      Reachable ⟨wrapDb, -2147483648, wrapFile⟩
        (add_student ⟨wrapDb, 1, wrapFile⟩ (str "C") 19 (str "ME") (.finite false 7 0)).2 ∧
      (add_student ⟨wrapDb, 1, wrapFile⟩ (str "C") 19 (str "ME")
        (.finite false 7 0)).2.db.map Student.id = [1, 2147483647, 1] ∧
      ¬ ((add_student ⟨wrapDb, 1, wrapFile⟩ (str "C") 19 (str "ME")
        (.finite false 7 0)).2.db.map Student.id).Nodup := by
  refine ⟨by decide, by decide, ?_, by decide, by decide⟩
  have h := wrap_cycle 2147483649 (le_refl _)
  exact Reachable.add _ _ _ _ h

set_option maxRecDepth 1000000 in
/-- C4 (as stated) fails: on the backing file `2147483647,"B",21,"EE",9` the
counter after `load` is -2147483648 (`2147483647 + 1` in 32 bits), and
`add_student` returns the id -2147483648, below the id 2147483647 present. -/
theorem add_student_id_below_after_wrap :
    load (some (str "2147483647,\"B\",21,\"EE\",9\n")) =
        some ⟨[⟨2147483647, str "B", 21, str "EE", .finite false 9 0⟩], -2147483648,
          str "2147483647,\"B\",21,\"EE\",9\n"⟩ ∧
      (add_student ⟨[⟨2147483647, str "B", 21, str "EE", .finite false 9 0⟩], -2147483648,
          str "2147483647,\"B\",21,\"EE\",9\n"⟩
        (str "C") 19 (str "ME") (.finite false 7 0)).1.id = -2147483648 ∧
      ¬ ∀ (disk : Option CString) (st0 st : StudentDatabase), load disk = some st0 →
          Reachable st0 st → ∀ s ∈ st.db,
            s.id < (add_student st (str "C") 19 (str "ME") (.finite false 7 0)).1.id := by
  refine ⟨by decide, by decide, fun h => ?_⟩
  have h1 := h (some (str "2147483647,\"B\",21,\"EE\",9\n"))
    ⟨[⟨2147483647, str "B", 21, str "EE", .finite false 9 0⟩], -2147483648,
      str "2147483647,\"B\",21,\"EE\",9\n"⟩ _ (by decide) Reachable.start
    ⟨2147483647, str "B", 21, str "EE", .finite false 9 0⟩ (by decide)
  revert h1
  decide

/-! ### Search -/

theorem find_isSome_iff (s pat : CString) : (find s pat).isSome = true ↔ pat <:+: s := by
  induction s with
  | nil =>
    unfold find
    split
    · rename_i h
      simp [h]
    · rename_i h
      simp [h]
  | cons c cs ih =>
    unfold find
    rw [List.infix_cons_iff]
    split
    · rename_i h
      simp [List.isPrefixOf_iff_prefix.1 h]
    · rename_i h
      have hp : ¬ pat <+: c :: cs := fun hp => h (List.isPrefixOf_iff_prefix.2 hp)
      simp [hp, ih]

/-- C5. Search correctness: `search_by_name term` is the store's records, in
store order, whose lower-cased name has the lower-cased term as a contiguous
substring; with the empty term it is every record, the sequence of `list_all`. -/
theorem search_by_name_spec (st : StudentDatabase) (term : CString) :
    search_by_name st term =
        st.db.filter (fun s => decide (term.map tolower <:+: s.name.map tolower)) ∧
      search_by_name st [] = list_all st := by
  constructor
  · unfold search_by_name
    apply List.filter_congr
    intro s _
    rw [Bool.eq_iff_iff, find_isSome_iff]
    simp
  · unfold search_by_name list_all
    rw [List.filter_eq_self]
    intro s _
    rw [find_isSome_iff]
    exact List.nil_infix

/-! ### Lookup, removal, update -/

theorem find_by_id_eq_none (db : List Student) (id : Int) (h : ∀ s ∈ db, s.id ≠ id) :
    find_by_id db id = none := by
  induction db with
  | nil => rfl
  | cons a rest ih =>
    unfold find_by_id
    rw [if_neg (h a (List.mem_cons_self _ _)), ih (fun s hs => h s (List.mem_cons_of_mem _ hs))]
    rfl

/-- C6. Delete or update on an absent id: when no record carries `id`,
`remove_by_id` and `update_student` return `false` and leave the store, with
its records, its id counter and the backing file, as it was. -/
theorem absent_id_no_change (st : StudentDatabase) (id : Int) (name : CString) (age : Int)
    (branch : CString) (cgpa : Double) (h : ∀ s ∈ st.db, s.id ≠ id) :
    remove_by_id st id = (false, st) ∧
      update_student st id name age branch cgpa = (false, st) := by
  constructor
  · unfold remove_by_id removeIf
    have hall : st.db.filter (fun s => !decide (s.id = id)) = st.db := by
      rw [List.filter_eq_self]
      intro s hs
      simp [h s hs]
    simp only [hall, if_true]
  · unfold update_student
    rw [find_by_id_eq_none st.db id h]

theorem absent_id_no_change_witness :
    remove_by_id ⟨[⟨1, str "A", 20, str "CS", .finite false 17 (-1)⟩], 2,
        str "1,\"A\",20,\"CS\",8.5\n"⟩ 5 =
      (false, ⟨[⟨1, str "A", 20, str "CS", .finite false 17 (-1)⟩], 2,
        str "1,\"A\",20,\"CS\",8.5\n"⟩) ∧
    update_student ⟨[⟨1, str "A", 20, str "CS", .finite false 17 (-1)⟩], 2,
        str "1,\"A\",20,\"CS\",8.5\n"⟩ 5 (str "Z") 30 (str "EE") Double.zero =
      (false, ⟨[⟨1, str "A", 20, str "CS", .finite false 17 (-1)⟩], 2,
        str "1,\"A\",20,\"CS\",8.5\n"⟩) :=
  absent_id_no_change _ 5 (str "Z") 30 (str "EE") Double.zero (by decide)


/-- C7 (amended). `add_student`: the record returned carries the current
`next_id` and the given fields, it is appended after the existing records,
which are unchanged, and `next_id` grows by one when it is an `int` below
2147483647. On the empty store loaded from an absent or empty file,
`add_student("Alice", 20, "CS", 8.5)` returns id 1, the store holds exactly
that record and the backing file is the single line `1,"Alice",20,"CS",8.5`. -/
theorem add_student_spec (st : StudentDatabase) (name : CString) (age : Int)
    (branch : CString) (cgpa : Double) :
    (add_student st name age branch cgpa).1 = ⟨st.next_id, name, age, branch, cgpa⟩ ∧
      (add_student st name age branch cgpa).2.db
        = st.db ++ [(add_student st name age branch cgpa).1] ∧
      (isInt32 st.next_id → st.next_id < 2147483647 →
        (add_student st name age branch cgpa).2.next_id = st.next_id + 1) ∧
      load none = some ⟨[], 1, []⟩ ∧ load (some []) = some ⟨[], 1, []⟩ ∧
      add_student ⟨[], 1, []⟩ (str "Alice") 20 (str "CS") (.finite false 17 (-1)) =
        (⟨1, str "Alice", 20, str "CS", .finite false 17 (-1)⟩,
          ⟨[⟨1, str "Alice", 20, str "CS", .finite false 17 (-1)⟩], 2,
            str "1,\"Alice\",20,\"CS\",8.5\n"⟩) := by
  refine ⟨rfl, rfl, ?_, by decide, by decide, by decide⟩
  intro h1 h2
  unfold isInt32 at h1
  show wrapInt32 (st.next_id + 1) = st.next_id + 1
  exact wrapInt32_eq _ (by omega) (by omega)

theorem add_student_spec_witness :
    isInt32 2147483646 ∧ (2147483646 : Int) < 2147483647 ∧
      (add_student ⟨[⟨2147483645, str "B", 21, str "EE", .finite false 9 0⟩], 2147483646, []⟩
        (str "Alice") 20 (str "CS") (.finite false 17 (-1))).2.next_id = 2147483646 + 1 :=
  ⟨by decide, by decide,
    (add_student_spec ⟨[⟨2147483645, str "B", 21, str "EE", .finite false 9 0⟩], 2147483646, []⟩
      (str "Alice") 20 (str "CS") (.finite false 17 (-1))).2.2.1 (by decide) (by decide)⟩

set_option maxRecDepth 1000000 in
/-- C7 (as stated) fails: the backing file `2147483646,"B",21,"EE",9` loads with
the counter at 2147483647; `add_student` then returns id 2147483647 and leaves
the counter at -2147483648 (`2147483647 + 1` in 32 bits), not at the counter
plus one. -/
theorem add_student_counter_wraps :
    load (some (str "2147483646,\"B\",21,\"EE\",9\n")) =
        some ⟨[⟨2147483646, str "B", 21, str "EE", .finite false 9 0⟩], 2147483647,
          str "2147483646,\"B\",21,\"EE\",9\n"⟩ ∧
      (add_student ⟨[⟨2147483646, str "B", 21, str "EE", .finite false 9 0⟩], 2147483647,
          str "2147483646,\"B\",21,\"EE\",9\n"⟩
        (str "C") 19 (str "ME") (.finite false 7 0)).1.id = 2147483647 ∧
      (add_student ⟨[⟨2147483646, str "B", 21, str "EE", .finite false 9 0⟩], 2147483647,
          str "2147483646,\"B\",21,\"EE\",9\n"⟩
        (str "C") 19 (str "ME") (.finite false 7 0)).2.next_id = -2147483648 ∧
      ¬ ∀ (st : StudentDatabase),
          (add_student st (str "C") 19 (str "ME") (.finite false 7 0)).2.next_id
            = st.next_id + 1 := by
  refine ⟨by decide, by decide, by decide, fun h => ?_⟩
  have h1 := h ⟨[⟨2147483646, str "B", 21, str "EE", .finite false 9 0⟩], 2147483647,
    str "2147483646,\"B\",21,\"EE\",9\n"⟩
  revert h1
  decide

/-- C8. `remove_by_id`: the store afterwards holds exactly the records whose id
differs from `id`, in their original order, the counter `next_id` is untouched,
and the result is `true` exactly when some record had that id. On the store
loaded with ids 1, 2, 3, `remove_by_id(2)` leaves ids 1, 3 and the next
`add_student` returns id 4. -/
theorem remove_by_id_spec (st : StudentDatabase) (id : Int) :
    (remove_by_id st id).2.db = st.db.filter (fun s => decide (s.id ≠ id)) ∧
      (remove_by_id st id).2.next_id = st.next_id ∧
      ((remove_by_id st id).1 = true ↔ ∃ s ∈ st.db, s.id = id) ∧
      load (some (str "1,\"A\",20,\"CS\",8.5\n2,\"B\",21,\"EE\",9\n3,\"C\",22,\"ME\",7\n")) =
        some ⟨[⟨1, str "A", 20, str "CS", .finite false 17 (-1)⟩,
            ⟨2, str "B", 21, str "EE", .finite false 9 0⟩,
            ⟨3, str "C", 22, str "ME", .finite false 7 0⟩], 4,
          str "1,\"A\",20,\"CS\",8.5\n2,\"B\",21,\"EE\",9\n3,\"C\",22,\"ME\",7\n"⟩ ∧
      (remove_by_id ⟨[⟨1, str "A", 20, str "CS", .finite false 17 (-1)⟩,
            ⟨2, str "B", 21, str "EE", .finite false 9 0⟩,
            ⟨3, str "C", 22, str "ME", .finite false 7 0⟩], 4,
          str "1,\"A\",20,\"CS\",8.5\n2,\"B\",21,\"EE\",9\n3,\"C\",22,\"ME\",7\n"⟩ 2) =
        (true, ⟨[⟨1, str "A", 20, str "CS", .finite false 17 (-1)⟩,
            ⟨3, str "C", 22, str "ME", .finite false 7 0⟩], 4,
          str "1,\"A\",20,\"CS\",8.5\n3,\"C\",22,\"ME\",7\n"⟩) ∧
      (add_student ⟨[⟨1, str "A", 20, str "CS", .finite false 17 (-1)⟩,
            ⟨3, str "C", 22, str "ME", .finite false 7 0⟩], 4,
          str "1,\"A\",20,\"CS\",8.5\n3,\"C\",22,\"ME\",7\n"⟩
          (str "D") 23 (str "CE") (.finite false 3 1)).1.id = 4 := by
  refine ⟨(remove_by_id_db st id).1, (remove_by_id_db st id).2, ?_, by decide, by decide, rfl⟩
  unfold remove_by_id removeIf
  simp only
  split
  · rename_i h
    have hall := (List.filter_sublist _).eq_of_length h
    rw [List.filter_eq_self] at hall
    simp only [Bool.false_eq_true, false_iff, not_exists, not_and]
    intro s hs
    simpa using hall s hs
  · rename_i h
    simp only [true_iff]
    by_contra hne
    apply h
    congr 1
    rw [List.filter_eq_self]
    intro s hs
    simp only [Bool.not_eq_true', decide_eq_false_iff_not]
    exact fun e => hne ⟨s, hs, e⟩


theorem find_by_id_first (db : List Student) (id : Int) (h : ∃ s ∈ db, s.id = id) :
    ∃ i s, find_by_id db id = some i ∧ db[i]? = some s ∧ s.id = id ∧
      ∀ j t, j < i → db[j]? = some t → t.id ≠ id := by
  induction db with
  | nil => simp at h
  | cons a rest ih =>
    unfold find_by_id
    by_cases ha : a.id = id
    · refine ⟨0, a, by rw [if_pos ha], by simp, ha, ?_⟩
      intro j t hj
      omega
    · have hrest : ∃ s ∈ rest, s.id = id := by
        obtain ⟨s, hs, e⟩ := h
        rcases List.mem_cons.1 hs with rfl | hs
        · exact absurd e ha
        · exact ⟨s, hs, e⟩
      obtain ⟨i, s, h1, h2, h3, h4⟩ := ih hrest
      refine ⟨i + 1, s, by rw [if_neg ha, h1]; rfl, by simpa using h2, h3, ?_⟩
      intro j t hj hjt
      cases j with
      | zero =>
        simp only [List.getElem?_cons_zero, Option.some.injEq] at hjt
        rw [← hjt]
        exact ha
      | succ j =>
        simp only [List.getElem?_cons_succ] at hjt
        exact h4 j t (by omega) hjt

theorem modifyAt_length (f : Student → Student) (db : List Student) (i : Nat) :
    (modifyAt f db i).length = db.length := by
  induction db generalizing i with
  | nil => rfl
  | cons a rest ih =>
    cases i with
    | zero => rfl
    | succ i => simp [modifyAt, ih]

theorem modifyAt_getElem? (f : Student → Student) (db : List Student) (i j : Nat) :
    (modifyAt f db i)[j]? = if j = i then db[j]?.map f else db[j]? := by
  induction db generalizing i j with
  | nil => simp [modifyAt]
  | cons a rest ih =>
    cases i with
    | zero =>
      cases j with
      | zero => simp [modifyAt]
      | succ j => simp [modifyAt]
    | succ i =>
      cases j with
      | zero => simp [modifyAt]
      | succ j => simp [modifyAt, ih]

/-- C9. `update_student` on a present id: when some record has the id, the
call returns `true`; with `i` the position of the first record with that id,
the store afterwards has the same length, holds at `i` the record with the same
id and the new name, age, branch and cgpa, holds at every other position the
record it held before, and `next_id` is unchanged. -/
theorem update_student_present (st : StudentDatabase) (id : Int) (name : CString) (age : Int)
    (branch : CString) (cgpa : Double) (h : ∃ s ∈ st.db, s.id = id) :
    ∃ i s, find_by_id st.db id = some i ∧ st.db[i]? = some s ∧ s.id = id ∧
      (∀ j t, j < i → st.db[j]? = some t → t.id ≠ id) ∧
      (update_student st id name age branch cgpa).1 = true ∧
      (update_student st id name age branch cgpa).2.db.length = st.db.length ∧
      (update_student st id name age branch cgpa).2.db[i]?
        = some ⟨id, name, age, branch, cgpa⟩ ∧
      (∀ j, j ≠ i → (update_student st id name age branch cgpa).2.db[j]? = st.db[j]?) ∧
      (update_student st id name age branch cgpa).2.next_id = st.next_id := by
  obtain ⟨i, s, h1, h2, h3, h4⟩ := find_by_id_first st.db id h
  refine ⟨i, s, h1, h2, h3, h4, ?_⟩
  unfold update_student
  simp only [h1, save_db, save_next_id, modifyAt_length, modifyAt_getElem?, if_true, h2,
    Option.map_some', true_and]
  refine ⟨by rw [← h3], ?_, trivial⟩
  intro j hj
  rw [if_neg hj]

theorem update_student_present_witness :
    ∃ i s, find_by_id [(⟨1, str "A", 20, str "CS", .finite false 17 (-1)⟩ : Student),
          ⟨3, str "B", 21, str "EE", .finite false 9 0⟩] 3 = some i ∧
      [(⟨1, str "A", 20, str "CS", .finite false 17 (-1)⟩ : Student),
          ⟨3, str "B", 21, str "EE", .finite false 9 0⟩][i]? = some s ∧ s.id = 3 ∧
      (∀ j t, j < i → [(⟨1, str "A", 20, str "CS", .finite false 17 (-1)⟩ : Student),
          ⟨3, str "B", 21, str "EE", .finite false 9 0⟩][j]? = some t → t.id ≠ 3) ∧
      (update_student ⟨[⟨1, str "A", 20, str "CS", .finite false 17 (-1)⟩,
          ⟨3, str "B", 21, str "EE", .finite false 9 0⟩], 4, []⟩
        3 (str "Z") 30 (str "CE") Double.zero).1 = true ∧
      (update_student ⟨[⟨1, str "A", 20, str "CS", .finite false 17 (-1)⟩,
          ⟨3, str "B", 21, str "EE", .finite false 9 0⟩], 4, []⟩
        3 (str "Z") 30 (str "CE") Double.zero).2.db.length = 2 ∧
      (update_student ⟨[⟨1, str "A", 20, str "CS", .finite false 17 (-1)⟩,
          ⟨3, str "B", 21, str "EE", .finite false 9 0⟩], 4, []⟩
        3 (str "Z") 30 (str "CE") Double.zero).2.db[i]?
        = some ⟨3, str "Z", 30, str "CE", Double.zero⟩ ∧
      (∀ j, j ≠ i → (update_student ⟨[⟨1, str "A", 20, str "CS", .finite false 17 (-1)⟩,
          ⟨3, str "B", 21, str "EE", .finite false 9 0⟩], 4, []⟩
        3 (str "Z") 30 (str "CE") Double.zero).2.db[j]?
          = [(⟨1, str "A", 20, str "CS", .finite false 17 (-1)⟩ : Student),
              ⟨3, str "B", 21, str "EE", .finite false 9 0⟩][j]?) ∧
      (update_student ⟨[⟨1, str "A", 20, str "CS", .finite false 17 (-1)⟩,
          ⟨3, str "B", 21, str "EE", .finite false 9 0⟩], 4, []⟩
        3 (str "Z") 30 (str "CE") Double.zero).2.next_id = 4 :=
  update_student_present
    ⟨[⟨1, str "A", 20, str "CS", .finite false 17 (-1)⟩,
      ⟨3, str "B", 21, str "EE", .finite false 9 0⟩], 4, []⟩
    3 (str "Z") 30 (str "CE") Double.zero
    ⟨⟨3, str "B", 21, str "EE", .finite false 9 0⟩, by decide, rfl⟩


/-! ### Import -/

theorem exists_decoded (lines : List CString)
    (h : ∀ l ∈ lines, ∃ s, Student.from_csv_line l = some s) :
    ∃ recs : List Student, lines.map Student.from_csv_line = recs.map some := by
  induction lines with
  | nil => exact ⟨[], rfl⟩
  | cons l rest ih =>
    obtain ⟨s, hs⟩ := h l (List.mem_cons_self _ _)
    obtain ⟨recs, hr⟩ := ih (fun x hx => h x (List.mem_cons_of_mem _ hx))
    exact ⟨s :: recs, by simp [hs, hr]⟩

theorem importLines_eq (lines : List CString) (recs db : List Student) (base : Int) (k : Nat)
    (h : (lines.filter (fun l => decide (l ≠ []))).map Student.from_csv_line = recs.map some)
    (hlo : -2147483648 ≤ base + k) (hhi : base + k + recs.length ≤ 2147483647) :
    importLines lines db (base + k) =
      some (db ++ (recs.enumFrom k).map (fun p => { p.2 with id := base + p.1 }),
        base + k + recs.length) := by
  induction lines generalizing recs db k with
  | nil =>
    cases recs with
    | nil => simp [importLines]
    | cons r rs => simp at h
  | cons l rest ih =>
    unfold importLines
    by_cases hl : l = []
    · subst hl
      simp only [List.length_nil, if_true]
      exact ih recs db k (by simpa using h) hlo hhi
    · have hlen : ¬ l.length = 0 := fun e => hl (List.length_eq_zero.1 e)
      rw [if_neg hlen]
      rw [List.filter_cons_of_pos (by simpa using hl)] at h
      cases recs with
      | nil => simp at h
      | cons r rs =>
        simp only [List.map_cons, List.cons.injEq] at h
        simp only [List.length_cons] at hhi
        push_cast at hhi
        rw [h.1]
        simp only
        rw [wrapInt32_eq _ (by omega) (by omega)]
        have hstep := ih rs (db ++ [{ r with id := base + k }]) (k + 1) h.2
          (by push_cast; omega) (by push_cast; omega)
        have e1 : base + ((k + 1 : Nat) : Int) = base + k + 1 := by push_cast; ring
        rw [e1] at hstep
        rw [hstep]
        simp only [List.enumFrom_cons, List.map_cons, List.append_assoc, List.singleton_append,
          List.length_cons, Option.some.injEq, Prod.mk.injEq, true_and]
        push_cast
        ring

theorem from_csv_line_short (l : CString) (h : (splitFields l [] false []).length < 5) :
    Student.from_csv_line l = some Student.sentinel := by
  unfold Student.from_csv_line
  split
  · rename_i heq
    rw [heq] at h
    simp only [List.length_cons] at h
    omega
  · rfl

/-- C10 (amended). `import_csv` on an openable file whose non-empty lines all
decode (to `recs`, in line order), when `next_id` is an `int` and `next_id`
plus the number of non-empty lines is at most 2147483647: it returns `true`,
the store becomes the old records followed by one record per non-empty line,
the `j`-th of them with id `next_id + j` (whatever id the line holds) and the
name, age, branch and cgpa decoded from the `j`-th non-empty line, and
`next_id` advances by their number. A line with fewer than five fields decodes
to the all-empty record. -/
theorem import_csv_appends (st : StudentDatabase) (content : CString)
    (h : ∀ l ∈ getlines content [], l ≠ [] → (Student.from_csv_line l).isSome = true)
    (hn : isInt32 st.next_id)
    (hk : st.next_id + (((getlines content []).filter (fun l => decide (l ≠ []))).length : Int)
      ≤ 2147483647) :
    ∃ (recs : List Student) (st2 : StudentDatabase),
      ((getlines content []).filter (fun l => decide (l ≠ []))).map Student.from_csv_line
        = recs.map some ∧
      import_csv st (some content) = some (true, st2) ∧
      st2.db = st.db ++ recs.enum.map (fun p => { p.2 with id := st.next_id + p.1 }) ∧
      st2.next_id = st.next_id + recs.length ∧
      ∀ l, (splitFields l [] false []).length < 5 →
        Student.from_csv_line l = some Student.sentinel := by
  obtain ⟨recs, hrecs⟩ := exists_decoded
    ((getlines content []).filter (fun l => decide (l ≠ [])))
    (fun l hl => Option.isSome_iff_exists.1
      (h l (List.mem_of_mem_filter hl) (by simpa using (List.mem_filter.1 hl).2)))
  have hlen : recs.length = ((getlines content []).filter (fun l => decide (l ≠ []))).length := by
    have := congrArg List.length hrecs
    simpa using this.symm
  unfold isInt32 at hn
  have hi := importLines_eq (getlines content []) recs st.db st.next_id 0 hrecs
    (by simp only [Nat.cast_zero, add_zero]; omega)
    (by simp only [Nat.cast_zero, add_zero]; rw [hlen]; exact hk)
  simp only [Nat.cast_zero, add_zero] at hi
  refine ⟨recs, save { st with
      db := st.db ++ recs.enum.map (fun p => { p.2 with id := st.next_id + p.1 }),
      next_id := st.next_id + recs.length }, hrecs, ?_, rfl, rfl, from_csv_line_short⟩
  unfold import_csv
  simp only [hi, Option.map_some']
  rfl

set_option maxRecDepth 1000000 in
theorem import_csv_appends_witness :
    ∃ (recs : List Student) (st2 : StudentDatabase),
      ((getlines (str "99,\"B\",21,\"EE\",9\n\nxy\n") []).filter
          (fun l => decide (l ≠ []))).map Student.from_csv_line = recs.map some ∧
      import_csv ⟨[⟨1, str "A", 20, str "CS", .finite false 17 (-1)⟩], 2,
          str "1,\"A\",20,\"CS\",8.5\n"⟩ (some (str "99,\"B\",21,\"EE\",9\n\nxy\n"))
        = some (true, st2) ∧
      st2.db = [⟨1, str "A", 20, str "CS", .finite false 17 (-1)⟩] ++
        recs.enum.map (fun p => { p.2 with id := 2 + p.1 }) ∧
      st2.next_id = 2 + recs.length ∧
      ∀ l, (splitFields l [] false []).length < 5 →
        Student.from_csv_line l = some Student.sentinel :=
  import_csv_appends
    ⟨[⟨1, str "A", 20, str "CS", .finite false 17 (-1)⟩], 2, str "1,\"A\",20,\"CS\",8.5\n"⟩
    (str "99,\"B\",21,\"EE\",9\n\nxy\n") (by decide) (by decide) (by decide)

set_option maxRecDepth 1000000 in
/-- C10 (as stated) fails: with the counter at 2147483647 (the store loaded
from `2147483646,"B",21,"EE",9`), importing a file of two lines gives the new
records the ids 2147483647 and -2147483648 and leaves the counter at
-2147483647: the second id is not the old counter plus one and the counter
has not advanced by two. -/
theorem import_csv_counter_wraps :
    import_csv ⟨[⟨2147483646, str "B", 21, str "EE", .finite false 9 0⟩], 2147483647,
          str "2147483646,\"B\",21,\"EE\",9\n"⟩
        (some (str "5,\"X\",18,\"IT\",7\n6,\"Y\",19,\"IT\",8\n")) =
      some (true, ⟨[⟨2147483646, str "B", 21, str "EE", .finite false 9 0⟩,
          ⟨2147483647, str "X", 18, str "IT", .finite false 7 0⟩,
          ⟨-2147483648, str "Y", 19, str "IT", .finite false 1 3⟩], -2147483647,
        str ("2147483646,\"B\",21,\"EE\",9\n2147483647,\"X\",18,\"IT\",7\n" ++
          "-2147483648,\"Y\",19,\"IT\",8\n")⟩) ∧
      ¬ ∀ (st st2 : StudentDatabase) (content : CString),
          import_csv st (some content) = some (true, st2) →
          st2.next_id = st.next_id +
            (((getlines content []).filter (fun l => decide (l ≠ []))).length : Int) := by
  refine ⟨by decide, fun h => ?_⟩
  have h1 := h ⟨[⟨2147483646, str "B", 21, str "EE", .finite false 9 0⟩], 2147483647,
      str "2147483646,\"B\",21,\"EE\",9\n"⟩ _ (str "5,\"X\",18,\"IT\",7\n6,\"Y\",19,\"IT\",8\n")
    (by decide : import_csv ⟨[⟨2147483646, str "B", 21, str "EE", .finite false 9 0⟩],
          2147483647, str "2147483646,\"B\",21,\"EE\",9\n"⟩
        (some (str "5,\"X\",18,\"IT\",7\n6,\"Y\",19,\"IT\",8\n")) =
      some (true, ⟨[⟨2147483646, str "B", 21, str "EE", .finite false 9 0⟩,
          ⟨2147483647, str "X", 18, str "IT", .finite false 7 0⟩,
          ⟨-2147483648, str "Y", 19, str "IT", .finite false 1 3⟩], -2147483647,
        str ("2147483646,\"B\",21,\"EE\",9\n2147483647,\"X\",18,\"IT\",7\n" ++
          "-2147483648,\"Y\",19,\"IT\",8\n")⟩))
  revert h1
  decide

/-! ### Load -/

theorem loadLines_eq (lines : List CString) (recs db : List Student)
    (h : (lines.filter (fun l => decide (l ≠ []))).map Student.from_csv_line = recs.map some) :
    loadLines lines db = some (db ++ recs.filter (fun s => decide (s.id > 0))) := by
  induction lines generalizing recs db with
  | nil =>
    cases recs with
    | nil => simp [loadLines]
    | cons r rs => simp at h
  | cons l rest ih =>
    unfold loadLines
    by_cases hl : l = []
    · subst hl
      simp only [List.length_nil, if_true]
      exact ih recs db (by simpa using h)
    · have hlen : ¬ l.length = 0 := fun e => hl (List.length_eq_zero.1 e)
      rw [if_neg hlen]
      rw [List.filter_cons_of_pos (by simpa using hl)] at h
      cases recs with
      | nil => simp at h
      | cons r rs =>
        simp only [List.map_cons, List.cons.injEq] at h
        rw [h.1]
        simp only
        by_cases hr : r.id > 0
        · rw [if_pos hr, ih rs _ h.2, List.filter_cons_of_pos (by simpa using hr)]
          simp
        · rw [if_neg hr, ih rs _ h.2, List.filter_cons_of_neg (by simpa using hr)]

/-- C11 (amended). `load`: when every non-empty line of the backing file
decodes (to `recs`, in file order), the store after `load` holds exactly the
decoded records with `id > 0`, in file order (empty lines and records with
`id <= 0` are dropped); `next_id` is `1` when no record was kept, and the
largest id kept plus one when the ids kept are below 2147483647. -/
theorem load_spec (content : CString)
    (h : ∀ l ∈ getlines content [], l ≠ [] → (Student.from_csv_line l).isSome = true) :
    ∃ (recs : List Student) (st : StudentDatabase),
      ((getlines content []).filter (fun l => decide (l ≠ []))).map Student.from_csv_line
        = recs.map some ∧
      load (some content) = some st ∧
      st.db = recs.filter (fun s => decide (s.id > 0)) ∧
      (st.db = [] → st.next_id = 1) ∧
      (st.db ≠ [] → (∀ s ∈ st.db, s.id < 2147483647) →
        (∃ s ∈ st.db, st.next_id = s.id + 1) ∧ ∀ s ∈ st.db, s.id < st.next_id) := by
  obtain ⟨recs, hrecs⟩ := exists_decoded
    ((getlines content []).filter (fun l => decide (l ≠ [])))
    (fun l hl => Option.isSome_iff_exists.1
      (h l (List.mem_of_mem_filter hl) (by simpa using (List.mem_filter.1 hl).2)))
  have hl := loadLines_eq (getlines content []) recs [] hrecs
  rw [List.nil_append] at hl
  have hload : load (some content) = some (refresh_next_id
      { db := recs.filter (fun s => decide (s.id > 0)), next_id := 0, file := content }) := by
    unfold load
    simp only [Option.getD_some, hl, Option.map_some']
  refine ⟨recs, _, hrecs, hload, rfl, ?_, ?_⟩
  · intro he
    have he2 : recs.filter (fun s => decide (s.id > 0)) = [] := he
    show wrapInt32 (maxId (recs.filter (fun s => decide (s.id > 0))) + 1) = 1
    rw [he2]
    decide
  · intro hne hmax
    obtain ⟨h1, -, h3, h4⟩ := load_inRange _ _ hload hmax
    obtain ⟨s, hs, hmx⟩ := maxId_attained _ hne h4
    exact ⟨⟨s, hs, by rw [h1, hmx]⟩, h3⟩

theorem load_spec_witness :
    ∃ (recs : List Student) (st : StudentDatabase),
      ((getlines (str "3,\"B\",21,\"EE\",9\n\nxy\n1,\"A\",20,\"CS\",8.5") []).filter
          (fun l => decide (l ≠ []))).map Student.from_csv_line = recs.map some ∧
      load (some (str "3,\"B\",21,\"EE\",9\n\nxy\n1,\"A\",20,\"CS\",8.5")) = some st ∧
      st.db = recs.filter (fun s => decide (s.id > 0)) ∧
      (st.db = [] → st.next_id = 1) ∧
      (st.db ≠ [] → (∀ s ∈ st.db, s.id < 2147483647) →
        (∃ s ∈ st.db, st.next_id = s.id + 1) ∧ ∀ s ∈ st.db, s.id < st.next_id) :=
  load_spec (str "3,\"B\",21,\"EE\",9\n\nxy\n1,\"A\",20,\"CS\",8.5") (by decide)

set_option maxRecDepth 1000000 in
/-- C11 (as stated) fails: on the backing file `2147483647,"B",21,"EE",9` the
record is kept and `next_id` is -2147483648 (`2147483647 + 1` in 32 bits), not
the largest id plus one. -/
theorem load_counter_wraps :
    load (some (str "2147483647,\"B\",21,\"EE\",9\n")) =
        some ⟨[⟨2147483647, str "B", 21, str "EE", .finite false 9 0⟩], -2147483648,
          str "2147483647,\"B\",21,\"EE\",9\n"⟩ ∧
      ¬ ∀ (content : CString) (st : StudentDatabase), load (some content) = some st →
          st.db ≠ [] → ∃ s ∈ st.db, st.next_id = s.id + 1 := by
  refine ⟨by decide, fun h => ?_⟩
  have h1 := h (str "2147483647,\"B\",21,\"EE\",9\n")
    ⟨[⟨2147483647, str "B", 21, str "EE", .finite false 9 0⟩], -2147483648,
      str "2147483647,\"B\",21,\"EE\",9\n"⟩ (by decide) (by decide)
  revert h1
  decide

/-- C12 fails on the code: on a line with five fields whose id, age or cgpa
field is not a number, `stoi` or `stod` throws and `from_csv_line` does not
return the sentinel record; `load` on a file with such a line does not return
either. -/
theorem from_csv_line_bad_number_throws :
    Student.from_csv_line (str "x,\"A\",20,\"CS\",8.5") = none ∧
      Student.from_csv_line (str "1,\"A\",y,\"CS\",8.5") = none ∧
      Student.from_csv_line (str "1,\"A\",20,\"CS\",z") = none ∧
      load (some (str "1,\"A\",20,\"CS\",8.5\nx,\"B\",21,\"EE\",9\n")) = none := by
  decide

/-! ### The credential ledger -/

theorem tokens_word (w rest cur : CString) (h : ∀ c ∈ w, isspace c = false) :
    tokens (w ++ rest) cur = tokens rest (cur ++ w) := by
  induction w generalizing cur with
  | nil => simp
  | cons c cs ih =>
    have hc : isspace c = false := h c (List.mem_cons_self _ _)
    simp only [List.cons_append, tokens, hc, Bool.false_eq_true, if_false, List.append_eq]
    rw [ih _ (fun c hc => h c (List.mem_cons_of_mem _ hc))]
    simp

theorem tokens_entry (u t rest : CString) (hu : isWord u) (ht : isWord t) :
    tokens (u ++ [ch ' '] ++ t ++ [ch '\n'] ++ rest) [] = u :: t :: tokens rest [] := by
  have hsp : isspace (ch ' ') = true := by decide
  have hnl : isspace (ch '\n') = true := by decide
  simp only [List.append_assoc, List.singleton_append]
  rw [tokens_word u _ [] hu.2, List.nil_append]
  simp only [tokens, hsp, if_true, if_neg hu.1, List.append_eq]
  rw [tokens_word t _ [] ht.2, List.nil_append]
  simp only [tokens, hnl, if_true, if_neg ht.1]

theorem tokens_ledgerOf (entries : List (CString × CString)) (rest : CString)
    (h : ∀ e ∈ entries, isWord e.1 ∧ isWord e.2) :
    tokens (ledgerOf entries ++ rest) [] =
      (entries.map fun e => [e.1, e.2]).flatten ++ tokens rest [] := by
  induction entries with
  | nil => simp [ledgerOf]
  | cons e es ih =>
    have he := h e (List.mem_cons_self _ _)
    have hes := ih (fun x hx => h x (List.mem_cons_of_mem _ hx))
    unfold ledgerOf at hes ⊢
    simp only [List.map_cons, List.flatten_cons, List.append_assoc] at hes ⊢
    have ht := tokens_entry e.1 e.2
      ((es.map fun e => e.1 ++ [ch ' '] ++ e.2 ++ [ch '\n']).flatten ++ rest) he.1 he.2
    simp only [List.append_assoc] at ht
    rw [ht, hes]
    simp

theorem scanUser_entries (entries : List (CString × CString)) (rest : List CString)
    (name : CString) :
    scanUser ((entries.map fun e => [e.1, e.2]).flatten ++ rest) name =
      (entries.any (fun e => decide (e.1 = name)) || scanUser rest name) := by
  induction entries with
  | nil => simp
  | cons e es ih =>
    simp only [List.map_cons, List.flatten_cons, List.cons_append, List.nil_append, scanUser,
      List.any_cons]
    by_cases he : e.1 = name
    · simp [he]
    · simp [he, ih]

theorem toHex_word (s : CString) (hs : s ≠ []) : isWord (toHex s) := by
  constructor
  · cases s with
    | nil => exact absurd rfl hs
    | cons c cs => simp [toHex]
  · induction s with
    | nil => exact absurd rfl hs
    | cons c cs ih =>
      have hall : ∀ k : Nat, isspace (hexTable.getD k 0) = false := by
        intro k
        by_cases hk : k < 16
        · interval_cases k <;> decide
        · have : hexTable.length ≤ k := by
            have : hexTable.length = 16 := by decide
            omega
          rw [List.getD_eq_default _ _ this]
          decide
      intro x hx
      simp only [toHex, List.mem_cons] at hx
      rcases hx with rfl | rfl | hx
      · exact hall _
      · exact hall _
      · cases cs with
        | nil => simp [toHex] at hx
        | cons d ds => exact ih (by simp) x hx

theorem xorFrom_ne_nil (key s : CString) (i : Nat) (hs : s ≠ []) : xorFrom key i s ≠ [] := by
  cases s with
  | nil => exact absurd rfl hs
  | cons c cs => simp [xorFrom]

theorem xor_encode_word (s key : CString) (hs : s ≠ []) : isWord (xor_encode s key) :=
  toHex_word _ (xorFrom_ne_nil key s 0 hs)

theorem tokens_after_register_extra (entries : List (CString × CString)) (u s extra : CString)
    (h : ∀ e ∈ entries, isWord e.1 ∧ isWord e.2) (hu : isWord u) (hs : s ≠ []) :
    tokens (ledgerOf entries ++ u ++ [ch ' '] ++ xor_encode s key123 ++ [ch '\n'] ++ extra) [] =
      (entries.map fun e => [e.1, e.2]).flatten ++ u :: xor_encode s key123 :: tokens extra [] := by
  have h1 := tokens_ledgerOf entries
    (u ++ [ch ' '] ++ xor_encode s key123 ++ [ch '\n'] ++ extra) h
  rw [tokens_entry u _ extra hu (xor_encode_word s key123 hs)] at h1
  rw [← h1]
  simp only [List.append_assoc]

theorem appendLog_users (fs : AuthFiles) (path text : CString) :
    ∃ extra, (appendLog fs path text).users = fs.users ++ extra := by
  unfold appendLog
  split
  · exact ⟨[], (List.append_nil _).symm⟩
  · split
    · exact ⟨text, rfl⟩
    · exact ⟨[], (List.append_nil _).symm⟩
  · exact ⟨[], (List.append_nil _).symm⟩

theorem register_user_users (fs : AuthFiles) (u s : CString)
    (hex : user_exists fs u = false) :
    (register_user fs u s).1 = true ∧
      ∃ extra, (register_user fs u s).2.users =
        fs.users ++ u ++ [ch ' '] ++ xor_encode s key123 ++ [ch '\n'] ++ extra := by
  unfold register_user
  rw [hex]
  simp only [Bool.false_eq_true, if_false, true_and]
  exact appendLog_users _ _ _

/-- C13 (amended). Registration and existence on a well-formed ledger: when
every line of the ledger is a non-empty user name without white space, one
space, a non-empty token without white space and a line feed, `u` is non-empty
and without white space, `s` is non-empty and `user_exists(u)` is false, then
`register_user(u, s)` returns true, afterwards `user_exists(u)` is true, and a
second `register_user(u, s2)` returns false and leaves the files unchanged. -/
theorem register_user_then_exists (entries : List (CString × CString))
    (logs : List (CString × CString)) (u s s2 : CString)
    (h : ∀ e ∈ entries, isWord e.1 ∧ isWord e.2) (hu : isWord u) (hs : s ≠ [])
    (hex : user_exists ⟨ledgerOf entries, logs⟩ u = false) :
    (register_user ⟨ledgerOf entries, logs⟩ u s).1 = true ∧
      user_exists (register_user ⟨ledgerOf entries, logs⟩ u s).2 u = true ∧
      register_user (register_user ⟨ledgerOf entries, logs⟩ u s).2 u s2 =
        (false, (register_user ⟨ledgerOf entries, logs⟩ u s).2) := by
  obtain ⟨hret, extra, husers⟩ := register_user_users ⟨ledgerOf entries, logs⟩ u s hex
  have hafter : user_exists (register_user ⟨ledgerOf entries, logs⟩ u s).2 u = true := by
    unfold user_exists
    rw [husers, tokens_after_register_extra entries u s extra h hu hs, scanUser_entries]
    simp [scanUser]
  refine ⟨hret, hafter, ?_⟩
  · generalize register_user ⟨ledgerOf entries, logs⟩ u s = r at hafter ⊢
    unfold register_user
    rw [hafter]
    rfl

set_option maxRecDepth 1000000 in
theorem register_user_then_exists_witness :
    (register_user ⟨ledgerOf [(str "admin", str "0A0114585C")], []⟩ (str "bob") (str "pw1")).1
        = true ∧
      user_exists
        (register_user ⟨ledgerOf [(str "admin", str "0A0114585C")], []⟩ (str "bob") (str "pw1")).2
        (str "bob") = true ∧
      register_user
        (register_user ⟨ledgerOf [(str "admin", str "0A0114585C")], []⟩ (str "bob") (str "pw1")).2
        (str "bob") (str "pw2") =
        (false,
          (register_user ⟨ledgerOf [(str "admin", str "0A0114585C")], []⟩ (str "bob")
            (str "pw1")).2) :=
  register_user_then_exists [(str "admin", str "0A0114585C")] [] (str "bob") (str "pw1")
    (str "pw2") (by decide) (by decide) (by decide) (by decide)

/-- C13 (as stated) fails. On the ledger `admin 0A0114585C` that `main` creates:
registering the user name `a b` (it holds a space) returns true, afterwards
`user_exists("a b")` is still false and a second registration returns true
again; the same happens for the user `bob` registered with the empty secret.
On a ledger whose last line has no line feed the new user name is glued to the
old token, and the empty user name is never read back. -/
theorem register_user_not_always_exists :
    (register_user ⟨str "admin 0A0114585C\n", []⟩ (str "a b") (str "pw1")).1 = true ∧
      user_exists (register_user ⟨str "admin 0A0114585C\n", []⟩ (str "a b") (str "pw1")).2
        (str "a b") = false ∧
      (register_user (register_user ⟨str "admin 0A0114585C\n", []⟩ (str "a b") (str "pw1")).2
        (str "a b") (str "pw2")).1 = true ∧
      (register_user ⟨str "admin 0A0114585C\n", []⟩ (str "bob") []).1 = true ∧
      user_exists (register_user ⟨str "admin 0A0114585C\n", []⟩ (str "bob") []).2
        (str "bob") = false ∧
      user_exists (register_user ⟨str "admin 0A0114585C", []⟩ (str "bob") (str "pw1")).2
        (str "bob") = false ∧
      user_exists (register_user ⟨str "admin 0A0114585C\n", []⟩ [] (str "pw1")).2 [] = false ∧
      ¬ ∀ (fs : AuthFiles) (u s : CString), user_exists fs u = false →
          (register_user fs u s).1 = true ∧ user_exists (register_user fs u s).2 u = true := by
  refine ⟨by decide, by decide, by decide, by decide, by decide, by decide, by decide,
    fun h => ?_⟩
  have h1 := h ⟨str "admin 0A0114585C\n", []⟩ (str "a b") (str "pw1") (by decide)
  revert h1
  decide

set_option maxRecDepth 1000000 in
theorem hexVal_not_space (c : CChar) (h : (hexVal c).isSome = true) : isspace c = false := by
  revert c
  decide

theorem isWord_of_isHexWord (w : CString) (h : isHexWord w) : isWord w :=
  ⟨h.1, fun c hc => hexVal_not_space c (h.2 c hc)⟩

theorem scanCredentials_entries (entries : List (CString × CString)) (rest : List CString)
    (name pw : CString) (h : ∀ e ∈ entries, e.1 ≠ name) :
    scanCredentials ((entries.map fun e => [e.1, e.2]).flatten ++ rest) name pw =
      scanCredentials rest name pw := by
  induction entries with
  | nil => simp
  | cons e es ih =>
    simp only [List.map_cons, List.flatten_cons, List.cons_append, List.nil_append,
      scanCredentials, if_neg (h e (List.mem_cons_self _ _))]
    exact ih (fun x hx => h x (List.mem_cons_of_mem _ hx))

theorem xor_decode_hex_of_encode (s key : CString) :
    xor_decode_hex (xor_encode s key) key = s := by
  unfold xor_decode_hex xor_encode
  rw [if_neg (by rw [toHex_length]; omega), hexBytes_toHex, xorFrom_xorFrom]

/-- C14. Verification after registration: on a ledger whose lines are each a
non-empty user name without white space, one space and a non-empty hex token,
for a non-empty user name `u` without white space that is not in the ledger
and a non-empty secret `s`, after `register_user(u, s)` the call
`check_credentials(u, t)` returns true exactly when `t = s`. -/
theorem check_credentials_after_register (entries : List (CString × CString))
    (logs : List (CString × CString)) (u s t : CString)
    (h : ∀ e ∈ entries, isWord e.1 ∧ isHexWord e.2) (hu : isWord u)
    (hnot : ∀ e ∈ entries, e.1 ≠ u) (hs : s ≠ []) :
    (register_user ⟨ledgerOf entries, logs⟩ u s).1 = true ∧
      (check_credentials (register_user ⟨ledgerOf entries, logs⟩ u s).2 u t = true ↔ t = s) := by
  have hw : ∀ e ∈ entries, isWord e.1 ∧ isWord e.2 :=
    fun e he => ⟨(h e he).1, isWord_of_isHexWord _ (h e he).2⟩
  have hex : user_exists ⟨ledgerOf entries, logs⟩ u = false := by
    unfold user_exists
    have ht := tokens_ledgerOf entries [] hw
    simp only [tokens, if_true, List.append_nil] at ht
    simp only [ht]
    have hs := scanUser_entries entries [] u
    simp only [List.append_nil] at hs
    rw [hs]
    simp only [scanUser, Bool.or_false, List.any_eq_false, decide_eq_true_eq]
    exact hnot
  obtain ⟨hret, extra, husers⟩ := register_user_users ⟨ledgerOf entries, logs⟩ u s hex
  refine ⟨hret, ?_⟩
  unfold check_credentials
  rw [husers, tokens_after_register_extra entries u s extra hw hu hs,
    scanCredentials_entries _ _ _ _ hnot]
  simp only [scanCredentials, if_true, xor_decode_hex_of_encode, decide_eq_true_eq]
  exact eq_comm

set_option maxRecDepth 1000000 in
theorem check_credentials_after_register_witness :
    ((register_user ⟨ledgerOf [(str "admin", str "0A0114585C")], []⟩ (str "bob") (str "pw1")).1
        = true ∧
      (check_credentials
        (register_user ⟨ledgerOf [(str "admin", str "0A0114585C")], []⟩ (str "bob") (str "pw1")).2
        (str "bob") (str "wrong") = true ↔ str "wrong" = str "pw1")) ∧
    ((register_user ⟨ledgerOf [(str "admin", str "0A0114585C")], []⟩ (str "bob") (str "pw1")).1
        = true ∧
      (check_credentials
        (register_user ⟨ledgerOf [(str "admin", str "0A0114585C")], []⟩ (str "bob") (str "pw1")).2
        (str "bob") (str "pw1") = true ↔ str "pw1" = str "pw1")) :=
  ⟨check_credentials_after_register [(str "admin", str "0A0114585C")] [] (str "bob") (str "pw1")
      (str "wrong") (by decide) (by decide) (by decide) (by decide),
    check_credentials_after_register [(str "admin", str "0A0114585C")] [] (str "bob") (str "pw1")
      (str "pw1") (by decide) (by decide) (by decide) (by decide)⟩

/-! ### The counter and the largest id -/

/-- C16. Persistence after every mutation: after `add_student`, after an
`update_student` or a `remove_by_id` that returned true and after an
`import_csv` that returned true, the backing file is the concatenation, over
the records of the store in their order, of `to_csv` of the record followed by
a line feed, and nothing else. -/
theorem file_after_mutation (st : StudentDatabase) (id : Int) (name : CString) (age : Int)
    (branch : CString) (cgpa : Double) :
    (add_student st name age branch cgpa).2.file =
        ((add_student st name age branch cgpa).2.db.map
          fun s => s.to_csv ++ [ch '\n']).flatten ∧
      ((update_student st id name age branch cgpa).1 = true →
        (update_student st id name age branch cgpa).2.file =
          ((update_student st id name age branch cgpa).2.db.map
            fun s => s.to_csv ++ [ch '\n']).flatten) ∧
      ((remove_by_id st id).1 = true →
        (remove_by_id st id).2.file =
          ((remove_by_id st id).2.db.map fun s => s.to_csv ++ [ch '\n']).flatten) ∧
      ∀ (src : Option CString) (st2 : StudentDatabase),
        import_csv st src = some (true, st2) →
        st2.file = (st2.db.map fun s => s.to_csv ++ [ch '\n']).flatten := by
  refine ⟨rfl, ?_, ?_, ?_⟩
  · intro hu
    unfold update_student at hu ⊢
    split at hu
    · exact absurd hu (by simp)
    · rfl
  · intro hr
    unfold remove_by_id at hr ⊢
    simp only at hr ⊢
    split at hr
    · exact absurd hr (by simp)
    · rename_i hne
      rw [if_neg hne]
      rfl
  · intro src st2 hi
    unfold import_csv at hi
    cases src with
    | none => simp at hi
    | some content =>
      simp only at hi
      cases hl : importLines (getlines content []) st.db st.next_id with
      | none => simp [hl] at hi
      | some r =>
        simp only [hl, Option.map_some', Option.some.injEq, Prod.mk.injEq, true_and] at hi
        rw [← hi]
        rfl

set_option maxRecDepth 1000000 in
theorem file_after_mutation_witness :
    (add_student ⟨[⟨1, str "A", 20, str "CS", .finite false 17 (-1)⟩,
          ⟨3, str "B", 21, str "EE", .finite false 9 0⟩], 4, []⟩
        (str "Z") 30 (str "CE") (.finite false 5 (-1))).2.file =
        str "1,\"A\",20,\"CS\",8.5\n3,\"B\",21,\"EE\",9\n4,\"Z\",30,\"CE\",2.5\n" ∧
      (update_student ⟨[⟨1, str "A", 20, str "CS", .finite false 17 (-1)⟩,
          ⟨3, str "B", 21, str "EE", .finite false 9 0⟩], 4, []⟩
        3 (str "Z") 30 (str "CE") (.finite false 5 (-1))).2.file =
        str "1,\"A\",20,\"CS\",8.5\n3,\"Z\",30,\"CE\",2.5\n" ∧
      (remove_by_id ⟨[⟨1, str "A", 20, str "CS", .finite false 17 (-1)⟩,
          ⟨3, str "B", 21, str "EE", .finite false 9 0⟩], 4, []⟩ 3).2.file =
        str "1,\"A\",20,\"CS\",8.5\n" ∧
      (save ⟨[⟨1, str "A", 20, str "CS", .finite false 17 (-1)⟩,
          ⟨3, str "B", 21, str "EE", .finite false 9 0⟩,
          ⟨4, str "X", 18, str "IT", .finite false 7 0⟩], 5, []⟩).file =
        str "1,\"A\",20,\"CS\",8.5\n3,\"B\",21,\"EE\",9\n4,\"X\",18,\"IT\",7\n" := by
  have h := file_after_mutation
    ⟨[⟨1, str "A", 20, str "CS", .finite false 17 (-1)⟩,
      ⟨3, str "B", 21, str "EE", .finite false 9 0⟩], 4, []⟩
    3 (str "Z") 30 (str "CE") (.finite false 5 (-1))
  refine ⟨h.1.trans (by decide), (h.2.1 (by decide)).trans (by decide),
    (h.2.2.1 (by decide)).trans (by decide), ?_⟩
  exact (h.2.2.2 (some (str "99,\"X\",18,\"IT\",7\n"))
    (save ⟨[⟨1, str "A", 20, str "CS", .finite false 17 (-1)⟩,
      ⟨3, str "B", 21, str "EE", .finite false 9 0⟩,
      ⟨4, str "X", 18, str "IT", .finite false 7 0⟩], 5, []⟩) (by decide)).trans (by decide)

/-! ### Lookup -/

/-- C17. `find_by_id`: the result is not-found exactly when no record of the
store has the id; otherwise it refers to the first record, in store order,
whose id is the one asked for. -/
theorem find_by_id_spec (db : List Student) (id : Int) :
    (find_by_id db id = none ↔ ∀ s ∈ db, s.id ≠ id) ∧
      ∀ i, find_by_id db id = some i →
        ∃ s, db[i]? = some s ∧ s.id = id ∧ ∀ j t, j < i → db[j]? = some t → t.id ≠ id := by
  have hnone : find_by_id db id = none ↔ ∀ s ∈ db, s.id ≠ id := by
    constructor
    · intro hn s hs he
      obtain ⟨i, _, h1, _⟩ := find_by_id_first db id ⟨s, hs, he⟩
      rw [hn] at h1
      exact absurd h1 (by simp)
    · exact find_by_id_eq_none db id
  refine ⟨hnone, ?_⟩
  intro i hi
  have hex : ∃ s ∈ db, s.id = id := by
    by_contra hne
    have := hnone.2 (fun s hs he => hne ⟨s, hs, he⟩)
    rw [this] at hi
    exact absurd hi (by simp)
  obtain ⟨k, s, h1, h2, h3, h4⟩ := find_by_id_first db id hex
  rw [hi] at h1
  cases Option.some.inj h1
  exact ⟨s, h2, h3, h4⟩

/-! ### Short lines and odd tokens -/

/-- C18. Decode of a short line: when the splitting loop yields fewer than five
fields (the empty line yields one), `from_csv_line` returns the record with
id 0, empty name and branch, age 0 and cgpa 0. -/
theorem from_csv_line_few_fields (line : CString)
    (h : (splitFields line [] false []).length < 5) :
    Student.from_csv_line line = some ⟨0, [], 0, [], .finite false 0 0⟩ :=
  from_csv_line_short line h

theorem from_csv_line_few_fields_witness :
    (splitFields [] [] false []).length < 5 ∧
      Student.from_csv_line [] = some ⟨0, [], 0, [], .finite false 0 0⟩ :=
  ⟨by decide, from_csv_line_few_fields [] (by decide)⟩

/-- C19. For every token of odd length, whatever its characters and the key,
`xor_decode_hex` returns the empty string. -/
theorem xor_decode_hex_odd (hexs key : CString) (h : hexs.length % 2 = 1) :
    xor_decode_hex hexs key = [] := by
  unfold xor_decode_hex
  rw [if_pos (by omega)]

theorem xor_decode_hex_odd_witness :
    (str "0A1").length % 2 = 1 ∧ xor_decode_hex (str "0A1") key123 = [] :=
  ⟨by decide, xor_decode_hex_odd (str "0A1") key123 (by decide)⟩

/-! ### Save, then load -/

set_option maxRecDepth 1000000 in
theorem isNumChar_of_isdigit (c : CChar) (h : isdigit c = true) : isNumChar c = true := by
  revert c
  decide

set_option maxRecDepth 1000000 in
theorem isNumChar_ne_newline (c : CChar) (h : isNumChar c = true) : c ≠ ch '\n' := by
  revert c
  decide

theorem showNat_num (n : Nat) : ∀ c ∈ showNat n, isNumChar c = true :=
  fun c hc => isNumChar_of_isdigit c (showNat_digits n c hc)

theorem showInt_num (i : Int) : ∀ c ∈ showInt i, isNumChar c = true := by
  intro c hc
  unfold showInt at hc
  split at hc
  · rcases List.mem_cons.1 hc with rfl | hc
    · decide
    · exact showNat_num _ c hc
  · exact showNat_num _ c hc

theorem withPoint_num (ip fp : CString) (h1 : ∀ c ∈ ip, isNumChar c = true)
    (h2 : ∀ c ∈ fp, isNumChar c = true) : ∀ c ∈ withPoint ip fp, isNumChar c = true := by
  have hstrip : ∀ c ∈ stripZeros fp, isNumChar c = true := by
    intro c hc
    unfold stripZeros at hc
    rw [List.mem_reverse] at hc
    exact h2 c (List.mem_reverse.1 ((List.dropWhile_sublist _).subset hc))
  intro c hc
  unfold withPoint at hc
  split at hc
  · exact h1 c hc
  · rcases List.mem_append.1 hc with hc | hc
    · exact h1 c hc
    · rcases List.mem_cons.1 hc with rfl | hc
      · decide
      · exact hstrip c hc

theorem fmtG_num (n d : Nat) : ∀ c ∈ fmtG n d, isNumChar c = true := by
  intro c hc
  have hds := showNat_num (sigDigits n d).1
  have htake : ∀ k, ∀ c ∈ (showNat (sigDigits n d).1).take k, isNumChar c = true :=
    fun k c hc => hds c (List.mem_of_mem_take hc)
  have hdrop : ∀ k, ∀ c ∈ (showNat (sigDigits n d).1).drop k, isNumChar c = true :=
    fun k c hc => hds c (List.mem_of_mem_drop hc)
  unfold fmtG at hc
  simp only at hc
  split at hc
  · split at hc
    · exact withPoint_num _ _ (htake _) (hdrop _) c hc
    · refine withPoint_num _ _ ?_ ?_ c hc
      · intro c hc
        rcases List.mem_singleton.1 hc with rfl
        decide
      · intro c hc
        rcases List.mem_append.1 hc with hc | hc
        · rw [List.eq_of_mem_replicate hc]
          decide
        · exact hds c hc
  · rcases List.mem_append.1 hc with hc | hc
    · exact withPoint_num _ _ (htake _) (hdrop _) c hc
    · rcases List.mem_cons.1 hc with rfl | hc
      · decide
      · rcases List.mem_cons.1 hc with hc | hc
        · rw [hc]
          split
          · exact (by decide : isNumChar (ch '-') = true)
          · exact (by decide : isNumChar (ch '+') = true)
        · unfold pad2 at hc
          split at hc
          · rcases List.mem_cons.1 hc with rfl | hc
            · decide
            · exact showNat_num _ c hc
          · exact showNat_num _ c hc

set_option maxRecDepth 100000 in
theorem sign_inf_nan_num (neg : Bool) :
    (∀ c ∈ signText neg, isNumChar c = true) ∧ (∀ c ∈ str "inf", isNumChar c = true) ∧
      (∀ c ∈ str "nan", isNumChar c = true) := by
  cases neg <;> decide

theorem showDouble_num (x : Double) : ∀ c ∈ showDouble x, isNumChar c = true := by
  intro c hc
  cases x with
  | finite neg m e =>
    unfold showDouble at hc
    rcases List.mem_append.1 hc with hc | hc
    · exact (sign_inf_nan_num neg).1 c hc
    · split at hc
      · rcases List.mem_singleton.1 hc with rfl
        decide
      · exact fmtG_num _ _ c hc
  | inf neg =>
    unfold showDouble at hc
    rcases List.mem_append.1 hc with hc | hc
    · exact (sign_inf_nan_num neg).1 c hc
    · exact (sign_inf_nan_num neg).2.1 c hc
  | nan neg =>
    unfold showDouble at hc
    rcases List.mem_append.1 hc with hc | hc
    · exact (sign_inf_nan_num neg).1 c hc
    · exact (sign_inf_nan_num neg).2.2 c hc

theorem to_csv_no_newline (r : Student) (hn : ch '\n' ∉ r.name) (hb : ch '\n' ∉ r.branch) :
    ch '\n' ∉ r.to_csv := by
  intro hc
  unfold Student.to_csv at hc
  simp only [List.mem_append, List.mem_cons, List.mem_singleton, List.not_mem_nil,
    or_false] at hc
  have hq : ch '\n' ≠ ch ',' ∧ ch '\n' ≠ ch '"' := by decide
  rcases hc with ((((((((h | h | h) | h) | h | h)) | h) | h | h) | h) | h | h) | h
  · exact isNumChar_ne_newline _ (showInt_num _ _ h) rfl
  · exact hq.1 h
  · exact hq.2 h
  · exact hn h
  · exact hq.2 h
  · exact hq.1 h
  · exact isNumChar_ne_newline _ (showInt_num _ _ h) rfl
  · exact hq.1 h
  · exact hq.2 h
  · exact hb h
  · exact hq.2 h
  · exact hq.1 h
  · exact isNumChar_ne_newline _ (showDouble_num _ _ h) rfl

theorem getlines_line (t rest cur : CString) (h : ch '\n' ∉ t) :
    getlines (t ++ ch '\n' :: rest) cur = (cur ++ t) :: getlines rest [] := by
  induction t generalizing cur with
  | nil => simp [getlines]
  | cons c cs ih =>
    have hc : c ≠ ch '\n' := fun e => h (e ▸ List.mem_cons_self _ _)
    simp only [List.cons_append, getlines, if_neg hc, List.append_eq]
    rw [ih _ (fun hm => h (List.mem_cons_of_mem _ hm))]
    simp

theorem getlines_flatten (ls : List CString) (h : ∀ t ∈ ls, ch '\n' ∉ t) :
    getlines (ls.map fun t => t ++ [ch '\n']).flatten [] = ls := by
  induction ls with
  | nil => rfl
  | cons t rest ih =>
    simp only [List.map_cons, List.flatten_cons, List.append_assoc, List.singleton_append]
    rw [getlines_line t _ [] (h t (List.mem_cons_self _ _)), List.nil_append,
      ih (fun x hx => h x (List.mem_cons_of_mem _ hx))]

theorem to_csv_ne_nil (r : Student) : r.to_csv ≠ [] := by
  unfold Student.to_csv
  simp

theorem decode_encode (r : Student) (c : Double)
    (hn : ch '"' ∉ r.name) (hb : ch '"' ∉ r.branch)
    (hid : isInt32 r.id) (hage : isInt32 r.age)
    (hc : stod (showDouble r.cgpa) = some c) :
    Student.from_csv_line r.to_csv = some { r with cgpa := c } := by
  unfold Student.from_csv_line
  rw [splitFields_to_csv r hn hb]
  simp [stoi_showInt _ hid, stoi_showInt _ hage, hc]

/-- C20 (amended). Save, then load: for a store whose records all have
`id > 0`, ids and ages in `int` range, names and branches free of `"` and of
newline, and a cgpa whose `%g` text `stod` reads back, `load` on
the file written by `save` returns; it yields the same number of records in
the same order, each with the id, name, age and branch of the original (its
cgpa being the value read back), and sets `next_id` to `1` for the empty
store and, when the ids are below 2147483647, to the largest id plus one. -/
theorem load_after_save (st : StudentDatabase)
    (hid : ∀ s ∈ st.db, s.id > 0 ∧ isInt32 s.id ∧ isInt32 s.age)
    (htxt : ∀ s ∈ st.db, ch '"' ∉ s.name ∧ ch '\n' ∉ s.name ∧
      ch '"' ∉ s.branch ∧ ch '\n' ∉ s.branch)
    (hcg : ∀ s ∈ st.db, (stod (showDouble s.cgpa)).isSome = true) :
    ∃ st2, load (some (save st).file) = some st2 ∧
      st2.db.map (fun s => (s.id, s.name, s.age, s.branch)) =
        st.db.map (fun s => (s.id, s.name, s.age, s.branch)) ∧
      st2.db.map (fun s => some s.cgpa) = st.db.map (fun s => stod (showDouble s.cgpa)) ∧
      (st.db = [] → st2.next_id = 1) ∧
      (st.db ≠ [] → (∀ s ∈ st.db, s.id < 2147483647) →
        (∃ s ∈ st.db, st2.next_id = s.id + 1) ∧ ∀ s ∈ st.db, s.id < st2.next_id) := by
  have hfile : (save st).file = ((st.db.map Student.to_csv).map fun t => t ++ [ch '\n']).flatten := by
    show (st.db.map fun s => s.to_csv ++ [ch '\n']).flatten = _
    rw [List.map_map]
    rfl
  have hlines : getlines (save st).file [] = st.db.map Student.to_csv := by
    rw [hfile]
    apply getlines_flatten
    intro t ht
    obtain ⟨s, hs, rfl⟩ := List.mem_map.1 ht
    exact to_csv_no_newline s (htxt s hs).2.1 (htxt s hs).2.2.2
  have hback : ∀ s ∈ st.db, Student.from_csv_line s.to_csv =
      some { s with cgpa := (stod (showDouble s.cgpa)).getD s.cgpa } := by
    intro s hs
    obtain ⟨c, hc⟩ := Option.isSome_iff_exists.1 (hcg s hs)
    rw [decode_encode s c (htxt s hs).1 (htxt s hs).2.2.1 (hid s hs).2.1 (hid s hs).2.2 hc, hc]
    rfl
  have hrecs : ((st.db.map Student.to_csv).filter (fun l => decide (l ≠ []))).map
      Student.from_csv_line =
      (st.db.map fun s => { s with cgpa := (stod (showDouble s.cgpa)).getD s.cgpa }).map some := by
    rw [List.filter_eq_self.2]
    · rw [List.map_map, List.map_map]
      exact List.map_congr_left (fun s hs => hback s hs)
    · intro t ht
      obtain ⟨s, _, rfl⟩ := List.mem_map.1 ht
      simpa using to_csv_ne_nil s
  have hl := loadLines_eq _ _ [] hrecs
  rw [List.nil_append, List.filter_eq_self.2] at hl
  swap
  · intro t ht
    obtain ⟨s, hs, rfl⟩ := List.mem_map.1 ht
    simpa using (hid s hs).1
  have hids : (st.db.map fun s => ({ s with cgpa := (stod (showDouble s.cgpa)).getD s.cgpa }
      : Student)).map Student.id = st.db.map Student.id := by
    rw [List.map_map]
    rfl
  refine ⟨refresh_next_id
    { db := st.db.map fun s => { s with cgpa := (stod (showDouble s.cgpa)).getD s.cgpa },
      next_id := 0, file := (save st).file }, ?_, ?_, ?_, ?_, ?_⟩
  · unfold load
    simp only [Option.getD_some, hlines, hl, Option.map_some']
  · show (st.db.map _).map _ = _
    rw [List.map_map]
    rfl
  · show (st.db.map _).map _ = _
    rw [List.map_map]
    apply List.map_congr_left
    intro s hs
    obtain ⟨c, hc⟩ := Option.isSome_iff_exists.1 (hcg s hs)
    simp [hc]
  · intro he
    show wrapInt32 (maxId (st.db.map _) + 1) = 1
    rw [he]
    decide
  · intro hne hlt
    have hmx : maxId (st.db.map fun s =>
        ({ s with cgpa := (stod (showDouble s.cgpa)).getD s.cgpa } : Student)) = maxId st.db :=
      maxId_eq_of_ids _ _ hids
    have hnn := maxId_nonneg st.db
    have hb := maxId_lt st.db 2147483647 (by decide) hlt
    have hw : wrapInt32 (maxId st.db + 1) = maxId st.db + 1 :=
      wrapInt32_eq _ (by omega) (by omega)
    obtain ⟨s, hs, hmax⟩ := maxId_attained st.db hne (fun s hs => (hid s hs).1)
    refine ⟨⟨s, hs, ?_⟩, ?_⟩
    · show wrapInt32 (maxId (st.db.map _) + 1) = s.id + 1
      rw [hmx, hw, hmax]
    · intro t ht
      show t.id < wrapInt32 (maxId (st.db.map _) + 1)
      rw [hmx, hw]
      exact lt_maxId_succ st.db t ht

set_option maxRecDepth 1000000 in
theorem load_after_save_witness :
    ∃ st2, load (some (save ⟨[⟨1, str "Rao, A", 20, str "CS", .finite false 17 (-1)⟩,
          ⟨3, str "B", 21, str "EE", .finite false 1048577 (-20)⟩], 4, []⟩).file) = some st2 ∧
      st2.db.map (fun s => (s.id, s.name, s.age, s.branch)) =
        ([⟨1, str "Rao, A", 20, str "CS", .finite false 17 (-1)⟩,
          ⟨3, str "B", 21, str "EE", .finite false 1048577 (-20)⟩] : List Student).map
          (fun s => (s.id, s.name, s.age, s.branch)) ∧
      st2.db.map (fun s => some s.cgpa) =
        ([⟨1, str "Rao, A", 20, str "CS", .finite false 17 (-1)⟩,
          ⟨3, str "B", 21, str "EE", .finite false 1048577 (-20)⟩] : List Student).map
          (fun s => stod (showDouble s.cgpa)) ∧
      (([⟨1, str "Rao, A", 20, str "CS", .finite false 17 (-1)⟩,
          ⟨3, str "B", 21, str "EE", .finite false 1048577 (-20)⟩] : List Student) = [] →
        st2.next_id = 1) ∧
      (([⟨1, str "Rao, A", 20, str "CS", .finite false 17 (-1)⟩,
          ⟨3, str "B", 21, str "EE", .finite false 1048577 (-20)⟩] : List Student) ≠ [] →
        (∀ s ∈ ([⟨1, str "Rao, A", 20, str "CS", .finite false 17 (-1)⟩,
            ⟨3, str "B", 21, str "EE", .finite false 1048577 (-20)⟩] : List Student),
          s.id < 2147483647) →
        (∃ s ∈ ([⟨1, str "Rao, A", 20, str "CS", .finite false 17 (-1)⟩,
            ⟨3, str "B", 21, str "EE", .finite false 1048577 (-20)⟩] : List Student),
          st2.next_id = s.id + 1) ∧
        ∀ s ∈ ([⟨1, str "Rao, A", 20, str "CS", .finite false 17 (-1)⟩,
            ⟨3, str "B", 21, str "EE", .finite false 1048577 (-20)⟩] : List Student),
          s.id < st2.next_id) :=
  load_after_save ⟨[⟨1, str "Rao, A", 20, str "CS", .finite false 17 (-1)⟩,
      ⟨3, str "B", 21, str "EE", .finite false 1048577 (-20)⟩], 4, []⟩
    (by decide) (by decide) (by decide)

set_option maxRecDepth 1000000 in
/-- C20 (as stated) fails: the record with `cgpa = 2^-1022` (the smallest
normal `double`, `2.2250738585072014e-308`) is saved as
`1,"A",20,"CS",2.22507e-308`; that text is below the normal range, `strtod`
reports `ERANGE`, `stod` throws, and `load` on the saved file does not return.
And the store whose only record has the id 2147483647 is saved and loaded
with `next_id = -2147483648` (`2147483647 + 1` in 32 bits), not the largest id
plus one. -/
theorem load_after_save_throws :
    (save ⟨[⟨1, str "A", 20, str "CS", .finite false 1 (-1022)⟩], 2, []⟩).file =
        str "1,\"A\",20,\"CS\",2.22507e-308\n" ∧
      load (some (save ⟨[⟨1, str "A", 20, str "CS", .finite false 1 (-1022)⟩], 2, []⟩).file) =
        none ∧
      load (some (save ⟨[⟨2147483647, str "B", 21, str "EE", .finite false 9 0⟩],
          -2147483648, []⟩).file) =
        some ⟨[⟨2147483647, str "B", 21, str "EE", .finite false 9 0⟩], -2147483648,
          str "2147483647,\"B\",21,\"EE\",9\n"⟩ := by
  decide!

end StudentDb
